import Mathlib

/-!
Verification development for the Docky versioned document store
(`document_manager.py` and `version_controller.py`).

The Python code is shallowly embedded:

* Python strings are `String`, `str.splitlines()` / `str.split()` /
  `'\n'.join` / slicing are modelled by executable helpers below;
* the per-document on-disk state (metadata.json plus the `v<N>.<ext>`
  payload files) is a `DocState` record; the operations of
  `DocumentManager` become pure state transformers on it;
* `difflib.SequenceMatcher` / `difflib.Differ` (the only parts of the
  standard library the merge logic leans on) are embedded faithfully,
  including the autojunk "popular element" filtering; float ratios are
  modelled with exact rationals;
* fallible operations return `Except PyErr`, mirroring the exceptions
  the Python code can raise (`FileNotFoundError`, `ValueError`,
  `KeyError`).

Loops are written either as structural recursion over lists or as
recursion over an explicit iteration-count argument whose initial value
is a proven upper bound on the number of iterations the Python loop can
make, so that every definition is executable by `decide`/`rfl`.
-/

namespace Docky

/-! ## Python string helpers -/

/-- Line-boundary characters recognised by Python `str.splitlines`. -/
def isLineBoundary (c : Char) : Bool :=
  c = '\n' || c = '\r' || c = '\x0b' || c = '\x0c' ||
  c = '\x1c' || c = '\x1d' || c = '\x1e' || c = '\x85' ||
  c = '\u2028' || c = '\u2029'

/-- Worker for `pySplitlines`: `acc` holds the current line reversed. -/
def splitlinesAux : List Char → List Char → List String
  | [], acc => if acc.isEmpty then [] else [String.mk acc.reverse]
  | '\r' :: '\n' :: rest, acc => String.mk acc.reverse :: splitlinesAux rest []
  | c :: rest, acc =>
    if isLineBoundary c then String.mk acc.reverse :: splitlinesAux rest []
    else splitlinesAux rest (c :: acc)

/-- Python `s.splitlines()` (keepends = False). -/
def pySplitlines (s : String) : List String := splitlinesAux s.data []

/-- Whitespace characters for Python `str.split()` / `str.isspace` (the
ASCII set plus the common one-byte Unicode ones; the remaining Unicode
space code points never appear in the development). -/
def pyIsSpace (c : Char) : Bool :=
  c = ' ' || c = '\t' || c = '\n' || c = '\r' || c = '\x0b' || c = '\x0c' ||
  c = '\x1c' || c = '\x1d' || c = '\x1e' || c = '\x1f' || c = '\x85' || c = '\xa0' ||
  c = '\u2028' || c = '\u2029'

/-- Worker for `pySplit`. -/
def pySplitAux : List Char → List Char → List String
  | [], acc => if acc.isEmpty then [] else [String.mk acc.reverse]
  | c :: rest, acc =>
    if pyIsSpace c then
      if acc.isEmpty then pySplitAux rest []
      else String.mk acc.reverse :: pySplitAux rest []
    else pySplitAux rest (c :: acc)

/-- Python `s.split()` with no separator: split on whitespace runs,
discarding empty tokens. -/
def pySplit (s : String) : List String := pySplitAux s.data []

/-- Python list slice `l[i:j]` (for the non-negative indices used here). -/
def pySlice (l : List α) (i j : Nat) : List α := (l.drop i).take (j - i)

/-- Python `str.rstrip()` (strip trailing whitespace). -/
def pyRstrip (s : String) : String :=
  String.mk (s.data.reverse.dropWhile pyIsSpace).reverse

/-- Helper for `pyStartswith`. -/
def beginsWith [DecidableEq α] : List α → List α → Bool
  | _, [] => true
  | [], _ :: _ => false
  | c :: cs, p :: ps => if c = p then beginsWith cs ps else false

/-- Python `s.startswith(pre)`. -/
def pyStartswith (s pre : String) : Bool := beginsWith s.data pre.data

/-- Python `s[n:]` (by code points). -/
def pyDrop (s : String) (n : Nat) : String := String.mk (s.data.drop n)

/-! ## Error model

The Python exceptions the embedded operations can raise. -/

inductive PyErr where
  | fileNotFound (msg : String)
  | valueError (msg : String)
  | keyError (key : String)
deriving Repr, DecidableEq

/-! ## The Version Store (`document_manager.py`)

Metadata mirrors the dictionary persisted in `metadata.json`; the
`branchedFrom` field mirrors the optional `branched_from` record that
`create_branch` attaches. Payload files `v<N>.<ext>` are a partial map
from version number to content. Document ids are opaque strings chosen
by the caller (the Python code draws fresh UUID4 strings). Timestamps
(`datetime.now().isoformat()`) are passed in as explicit arguments. -/

structure VersionRec where
  version : Nat
  timestamp : String
  changes : String
deriving Repr, DecidableEq

structure BranchInfo where
  docId : String
  version : Nat
  name : String
deriving Repr, DecidableEq

structure Metadata where
  name : String
  dtype : String
  createdAt : String
  updatedAt : String
  versionCount : Nat
  currentVersion : Nat
  versions : List VersionRec
  branchedFrom : Option BranchInfo
deriving Repr, DecidableEq

structure DocState where
  meta : Metadata
  payloads : Nat → Option String

/-- `DocumentManager.create_document` (the per-document state it leaves
on disk; the fresh UUID is chosen by the caller). -/
def createDocument (content name dtype ts : String) : DocState :=
  { meta := { name := name, dtype := dtype, createdAt := ts, updatedAt := ts,
              versionCount := 1, currentVersion := 1,
              versions := [⟨1, ts, "Initial version"⟩], branchedFrom := none },
    payloads := fun v => if v = 1 then some content else none }

/-- The metadata record `update_document` computes from the record it
read: bump `version_count`, point `current_version` at the new version,
refresh `updated_at`, append the new version entry. -/
def appendVersionMeta (m : Metadata) (changeDesc ts : String) : Metadata :=
  let n := m.versionCount + 1
  { m with versionCount := n, currentVersion := n, updatedAt := ts,
           versions := m.versions ++ [⟨n, ts, changeDesc⟩] }

/-- `DocumentManager.update_document` on an existing document: write the
new payload at `version_count + 1` and replace the metadata. Returns the
new version number with the new state. -/
def updateDocument (d : DocState) (content changeDesc ts : String) : Nat × DocState :=
  let n := d.meta.versionCount + 1
  (n, { meta := appendVersionMeta d.meta changeDesc ts,
        payloads := fun v => if v = n then some content else d.payloads v })

/-- Reading the payload file `v<v>.<ext>`: Python's `open` raises
`FileNotFoundError` when the file is absent. -/
def readPayload (d : DocState) (v : Nat) : Except PyErr (String × Metadata) :=
  match d.payloads v with
  | some c => .ok (c, d.meta)
  | none => .error (.fileNotFound "payload file missing")

theorem readPayload_some {d : DocState} {v : Nat} {c : String} (h : d.payloads v = some c) :
    readPayload d v = .ok (c, d.meta) := by
  unfold readPayload
  rw [h]

/-- `DocumentManager.get_document`: `version = None` reads
`current_version` (no range check); an explicit version is range checked
against `1..version_count` first (`ValueError` otherwise). -/
def getDocument (d : DocState) (version : Option Nat) : Except PyErr (String × Metadata) :=
  match version with
  | none => readPayload d d.meta.currentVersion
  | some v =>
    if v < 1 ∨ d.meta.versionCount < v then
      .error (.valueError ("Version " ++ toString v ++ " does not exist"))
    else readPayload d v

/-- `DocumentManager.set_current_version`: range check, then rewrite the
metadata with the new `current_version` and `updated_at`. -/
def setCurrentVersion (d : DocState) (v : Nat) (ts : String) : Except PyErr DocState :=
  if v < 1 ∨ d.meta.versionCount < v then
    .error (.valueError ("Version " ++ toString v ++ " does not exist"))
  else
    .ok { d with meta := { d.meta with currentVersion := v, updatedAt := ts } }

/-- A sequence of `update_document` calls, each given by
(content, change description, timestamp). -/
def applyUpdates (d : DocState) (ops : List (String × String × String)) : DocState :=
  ops.foldl (fun s op => (updateDocument s op.1 op.2.1 op.2.2).2) d

/-! ## Crash model for `update_document` (claim C2)

`update_document` performs its writes in this order:

1. `open(version_path, 'w')`  — creates/truncates the new payload file;
2. `f.write(content)`         — fills it;
3. `open(metadata_path, 'w')` — truncates `metadata.json`;
4. `json.dump(metadata, f)`   — writes the new metadata.

Each step is taken as atomic and a crash may fall between any two steps;
`runUpdatePrefix k` is the on-disk state after the first `k` steps. A
file is `truncated` right after being opened with mode `"w"` and before
its content lands. -/

inductive FileData (α : Type) where
  | record (val : α)
  | truncated
deriving Repr, DecidableEq

structure DocDirFS where
  metaFile : Option (FileData Metadata)
  payloadFiles : Nat → Option (FileData String)

/-- The on-disk directory corresponding to a fully committed state. -/
def docFSOf (d : DocState) : DocDirFS :=
  { metaFile := some (.record d.meta),
    payloadFiles := fun v => (d.payloads v).map .record }

inductive UpdateStep where
  | openPayload
  | writePayload
  | openMeta
  | writeMeta
deriving Repr, DecidableEq

def applyUpdateStep (m : Metadata) (content changeDesc ts : String)
    (fs : DocDirFS) : UpdateStep → DocDirFS
  | .openPayload =>
    { fs with payloadFiles := fun v =>
        if v = m.versionCount + 1 then some .truncated else fs.payloadFiles v }
  | .writePayload =>
    { fs with payloadFiles := fun v =>
        if v = m.versionCount + 1 then some (.record content) else fs.payloadFiles v }
  | .openMeta => { fs with metaFile := some .truncated }
  | .writeMeta => { fs with metaFile := some (.record (appendVersionMeta m changeDesc ts)) }

def updateDocumentSteps : List UpdateStep :=
  [.openPayload, .writePayload, .openMeta, .writeMeta]

/-- The on-disk state after the first `k` atomic steps of
`update_document` (a crash after step `k` freezes this state). -/
def runUpdatePrefix (fs : DocDirFS) (m : Metadata) (content changeDesc ts : String)
    (k : Nat) : DocDirFS :=
  (updateDocumentSteps.take k).foldl (applyUpdateStep m content changeDesc ts) fs

/-! ## Version Store theorems -/

theorem applyUpdates_cons (d : DocState) (op : String × String × String)
    (ops : List (String × String × String)) :
    applyUpdates d (op :: ops) = applyUpdates (updateDocument d op.1 op.2.1 op.2.2).2 ops := rfl

theorem applyUpdates_count (ops : List (String × String × String)) :
    ∀ d : DocState,
      (applyUpdates d ops).meta.versionCount = d.meta.versionCount + ops.length ∧
      (d.meta.currentVersion = d.meta.versionCount →
        (applyUpdates d ops).meta.currentVersion = (applyUpdates d ops).meta.versionCount) := by
  induction ops with
  | nil => intro d; exact ⟨rfl, fun h => h⟩
  | cons op rest ih =>
    intro d
    rw [applyUpdates_cons]
    obtain ⟨h1, h2⟩ := ih (updateDocument d op.1 op.2.1 op.2.2).2
    refine ⟨?_, fun _ => h2 rfl⟩
    rw [h1]
    simp only [updateDocument, appendVersionMeta, List.length_cons]
    omega

/-- Claim C7: a freshly created document has `version_count = 1` and
`current_version = 1`, and after `N` successful `update_document`
(append_version) calls both equal `1 + N`. -/
theorem version_count_after_updates (content name dtype ts : String)
    (ops : List (String × String × String)) :
    (applyUpdates (createDocument content name dtype ts) ops).meta.versionCount
        = 1 + ops.length ∧
    (applyUpdates (createDocument content name dtype ts) ops).meta.currentVersion
        = 1 + ops.length := by
  obtain ⟨h1, h2⟩ := applyUpdates_count ops (createDocument content name dtype ts)
  refine ⟨?_, ?_⟩
  · rw [h1]; rfl
  · have h2' := h2 rfl
    rw [h2', h1]; rfl

theorem payload_preserved (ops : List (String × String × String)) :
    ∀ (d : DocState) (v : Nat) (c : String), v ≤ d.meta.versionCount →
      d.payloads v = some c →
      (applyUpdates d ops).payloads v = some c ∧
      v ≤ (applyUpdates d ops).meta.versionCount := by
  induction ops with
  | nil => intro d v c hv hc; exact ⟨hc, hv⟩
  | cons op rest ih =>
    intro d v c hv hc
    rw [applyUpdates_cons]
    apply ih
    · show v ≤ d.meta.versionCount + 1
      omega
    · show (if v = d.meta.versionCount + 1 then some op.1 else d.payloads v) = some c
      rw [if_neg (by omega)]
      exact hc

instance [DecidableEq ε] [DecidableEq α] : DecidableEq (Except ε α) := fun x y =>
  match x, y with
  | .ok a, .ok b =>
    if h : a = b then isTrue (congrArg Except.ok h)
    else isFalse (fun he => h (Except.ok.inj he))
  | .error a, .error b =>
    if h : a = b then isTrue (congrArg Except.error h)
    else isFalse (fun he => h (Except.error.inj he))
  | .ok _, .error _ => isFalse (fun he => Except.noConfusion he)
  | .error _, .ok _ => isFalse (fun he => Except.noConfusion he)

/-- Universal-newline decoding performed by Python's text-mode
`open(version_path, 'r', encoding='utf-8')` with the default
`newline=None`, as `get_document` uses for `f.read()`: each `"\r\n"`
pair and each lone `'\r'` is translated to `'\n'`. The text-mode writes
of `create_document`/`update_document` (`f.write(content)`, also with
`newline=None`) leave the string unchanged on POSIX where
`os.linesep = '\n'`, so the stored payload holds the written string
byte-for-byte and the translation happens on read. -/
def universalNewlinesAux : List Char → List Char
  | [] => []
  | '\r' :: '\n' :: rest => '\n' :: universalNewlinesAux rest
  | '\r' :: rest => '\n' :: universalNewlinesAux rest
  | c :: rest => c :: universalNewlinesAux rest

def universalNewlines (s : String) : String :=
  String.mk (universalNewlinesAux s.data)

/-- Reading a payload file the way `get_document` does: the stored
bytes pass through universal-newline decoding. -/
def readPayloadText (d : DocState) (v : Nat) : Except PyErr (String × Metadata) :=
  match d.payloads v with
  | some c => .ok (universalNewlines c, d.meta)
  | none => .error (.fileNotFound "payload file missing")

theorem readPayloadText_some {d : DocState} {v : Nat} {c : String}
    (h : d.payloads v = some c) :
    readPayloadText d v = .ok (universalNewlines c, d.meta) := by
  unfold readPayloadText
  rw [h]

/-- `DocumentManager.get_document` including its text-mode content
read: `version = None` reads `current_version` (no range check); an
explicit version is range checked against `1..version_count` first
(`ValueError` otherwise); the returned content is the universal-newline
translation of the stored payload. -/
def getDocumentText (d : DocState) (version : Option Nat) : Except PyErr (String × Metadata) :=
  match version with
  | none => readPayloadText d d.meta.currentVersion
  | some v =>
    if v < 1 ∨ d.meta.versionCount < v then
      .error (.valueError ("Version " ++ toString v ++ " does not exist"))
    else readPayloadText d v

/-- Claim C6 (corrected): the stored payload of an existing version `v`
is never rewritten by later `update_document` calls, but `get_document`
at `v` returns the universal-newline translation of the content
originally written for `v` — the text-mode read turns `"\r\n"` and lone
`'\r'` into `'\n'` — which equals that content exactly when it contains
no `'\r'`. -/
theorem read_returns_translated_content (d : DocState) (v : Nat) (c : String)
    (h1 : 1 ≤ v) (h2 : v ≤ d.meta.versionCount) (hc : d.payloads v = some c)
    (ops : List (String × String × String)) :
    (applyUpdates d ops).payloads v = some c ∧
    getDocumentText (applyUpdates d ops) (some v) =
      .ok (universalNewlines c, (applyUpdates d ops).meta) := by
  obtain ⟨hp, hv⟩ := payload_preserved ops d v c h2 hc
  refine ⟨hp, ?_⟩
  show (if v < 1 ∨ (applyUpdates d ops).meta.versionCount < v then _ else
    readPayloadText (applyUpdates d ops) v) = _
  rw [if_neg (by omega)]
  exact readPayloadText_some hp

/-- Witness: version 1 stores `"a\r\nb"` untouched through a later
update, and reading it back yields its universal-newline translation. -/
theorem read_returns_translated_content_witness :
    (applyUpdates (createDocument "a\r\nb" "Doc" "txt" "t0") [("world", "edit", "t1")]).payloads 1
        = some "a\r\nb" ∧
    getDocumentText (applyUpdates (createDocument "a\r\nb" "Doc" "txt" "t0")
        [("world", "edit", "t1")]) (some 1)
      = .ok (universalNewlines "a\r\nb",
          (applyUpdates (createDocument "a\r\nb" "Doc" "txt" "t0") [("world", "edit", "t1")]).meta) :=
  read_returns_translated_content (createDocument "a\r\nb" "Doc" "txt" "t0") 1 "a\r\nb"
    (by decide) (by decide) rfl [("world", "edit", "t1")]

/-- Counterexample to the literal claim: version 1 was written as
`"a\r\nb"`, but `get_document`'s text-mode read returns `"a\nb"`, not
exactly the content originally written. -/
theorem read_crlf_counterexample :
    getDocumentText (createDocument "a\r\nb" "Doc" "txt" "t0") (some 1) =
      .ok ("a\nb", (createDocument "a\r\nb" "Doc" "txt" "t0").meta) ∧
    "a\nb" ≠ "a\r\nb" :=
  ⟨by decide, by decide⟩

/-- Claim C8: `set_current_version` on a valid version only moves
`current_version` (and `updated_at`): payloads, the version records and
`version_count` are untouched, and a subsequent default read returns
version `v`'s content. -/
theorem set_current_version_frame (d : DocState) (v : Nat) (ts c : String)
    (h1 : 1 ≤ v) (h2 : v ≤ d.meta.versionCount) (hc : d.payloads v = some c) :
    ∃ d2, setCurrentVersion d v ts = .ok d2 ∧
      d2.payloads = d.payloads ∧
      d2.meta.versions = d.meta.versions ∧
      d2.meta.versionCount = d.meta.versionCount ∧
      d2.meta.currentVersion = v ∧
      getDocument d2 none = .ok (c, d2.meta) := by
  refine ⟨{ d with meta := { d.meta with currentVersion := v, updatedAt := ts } },
    ?_, rfl, rfl, rfl, rfl, ?_⟩
  · show (if v < 1 ∨ d.meta.versionCount < v then _ else _) = _
    rw [if_neg (by omega)]
  · show readPayload _ v = _
    exact readPayload_some hc

theorem set_current_version_frame_witness :
    ∃ d2, setCurrentVersion
        (applyUpdates (createDocument "one" "Doc" "txt" "t0") [("two", "e", "t1"), ("three", "e", "t2")])
        1 "t3" = .ok d2 ∧
      d2.payloads = (applyUpdates (createDocument "one" "Doc" "txt" "t0")
        [("two", "e", "t1"), ("three", "e", "t2")]).payloads ∧
      d2.meta.versions = (applyUpdates (createDocument "one" "Doc" "txt" "t0")
        [("two", "e", "t1"), ("three", "e", "t2")]).meta.versions ∧
      d2.meta.versionCount = (applyUpdates (createDocument "one" "Doc" "txt" "t0")
        [("two", "e", "t1"), ("three", "e", "t2")]).meta.versionCount ∧
      d2.meta.currentVersion = 1 ∧
      getDocument d2 none = .ok ("one", d2.meta) :=
  set_current_version_frame
    (applyUpdates (createDocument "one" "Doc" "txt" "t0") [("two", "e", "t1"), ("three", "e", "t2")])
    1 "t3" "one" (by decide) (by decide) rfl

/-- Claim C2 (refuted by the code): `update_document` is not atomic. A
crash between the `open(metadata_path, 'w')` truncation (step 3) and the
`json.dump` (step 4) leaves `metadata.json` truncated — the previously
committed metadata record is destroyed; and already after step 2 the new
`v2` payload file exists while the metadata still records only one
version, i.e. an orphaned payload with no metadata record. -/
theorem update_crash_breaks_atomicity :
    (runUpdatePrefix (docFSOf (createDocument "hello" "Doc" "txt" "t0"))
        (createDocument "hello" "Doc" "txt" "t0").meta "world" "edit" "t1" 3).metaFile
      = some .truncated ∧
    some FileData.truncated
      ≠ some (FileData.record (createDocument "hello" "Doc" "txt" "t0").meta) ∧
    (runUpdatePrefix (docFSOf (createDocument "hello" "Doc" "txt" "t0"))
        (createDocument "hello" "Doc" "txt" "t0").meta "world" "edit" "t1" 2).payloadFiles 2
      = some (.record "world") ∧
    (runUpdatePrefix (docFSOf (createDocument "hello" "Doc" "txt" "t0"))
        (createDocument "hello" "Doc" "txt" "t0").meta "world" "edit" "t1" 2).metaFile
      = some (.record (createDocument "hello" "Doc" "txt" "t0").meta) ∧
    (createDocument "hello" "Doc" "txt" "t0").meta.versionCount = 1 :=
  ⟨rfl, by decide, rfl, rfl, rfl⟩

/-! ## Conflict resolution (`VersionController.resolve_conflict`)

The Python loop walks the lines of `merged_content` with an index `i`;
at an opening `"<<<<<<< TARGET"` marker it scans forward remembering the
last `"======="` seen and stopping at the first `">>>>>>> SOURCE"`.
`resolveAux` mirrors the loop; it recurses structurally on an iteration
budget whose initial value `lines.length` is an upper bound on the
number of loop iterations (every iteration consumes at least one line),
so the budget is never exhausted and the recursion matches the loop. The
`base` argument is the absolute index of the first line of the current
suffix, used to reproduce the `f"{start}-{end}"` conflict ids. -/

def scanBlock : List String → Nat → Option Nat → Option (Option Nat × Nat)
  | [], _, _ => none
  | l :: rest, j, mid =>
    if l = "=======" then scanBlock rest (j + 1) (some j)
    else if l = ">>>>>>> SOURCE" then some (mid, j)
    else scanBlock rest (j + 1) mid

def resolveAux (res : List (String × String)) :
    Nat → List String → Nat → Except PyErr (List String)
  | 0, _, _ => .ok []
  | _ + 1, [], _ => .ok []
  | fuel + 1, line :: rest, base =>
    if line = "<<<<<<< TARGET" then
      match scanBlock rest 0 none with
      | some (some mrel, erel) =>
        let cid := toString base ++ "-" ++ toString (base + 1 + erel)
        let cont := resolveAux res fuel (rest.drop (erel + 1)) (base + erel + 2)
        match res.lookup cid with
        | some choice =>
          if choice = "target" then cont.map (fun tl => rest.take mrel ++ tl)
          else if choice = "source" then cont.map (fun tl => pySlice rest (mrel + 1) erel ++ tl)
          else if choice = "both" then
            cont.map (fun tl => rest.take mrel ++ (pySlice rest (mrel + 1) erel ++ tl))
          else if choice = "custom" then
            match res.lookup (cid ++ "_custom") with
            | some cu => cont.map (fun tl => cu :: tl)
            | none => .error (.keyError (cid ++ "_custom"))
          else cont
        | none => cont.map (fun tl => line :: (rest.take (erel + 1) ++ tl))
      | some (none, _) => (resolveAux res fuel rest (base + 1)).map (fun tl => line :: tl)
      | none => (resolveAux res fuel rest (base + 1)).map (fun tl => line :: tl)
    else (resolveAux res fuel rest (base + 1)).map (fun tl => line :: tl)

/-- `VersionController.resolve_conflict`: resolutions are the key/value
pairs of the `resolution` dictionary. -/
def resolveConflict (mergedContent : String) (res : List (String × String)) :
    Except PyErr String :=
  let lines := pySplitlines mergedContent
  (resolveAux res lines.length lines 0).map (String.intercalate "\n")

theorem resolveAux_empty_res :
    ∀ (fuel : Nat) (lines : List String) (base : Nat), lines.length ≤ fuel →
      resolveAux [] fuel lines base = .ok lines := by
  intro fuel
  induction fuel with
  | zero =>
    intro lines base h
    rw [Nat.le_zero, List.length_eq_zero] at h
    subst h
    rfl
  | succ fuel ih =>
    intro lines base h
    match lines with
    | [] => rfl
    | line :: rest =>
      simp only [List.length_cons, Nat.succ_le_succ_iff] at h
      by_cases hm : line = "<<<<<<< TARGET"
      · rw [resolveAux, if_pos hm]
        match hscan : scanBlock rest 0 none with
        | some (some mrel, erel) =>
          dsimp only [List.lookup]
          have hdrop : (rest.drop (erel + 1)).length ≤ fuel := by
            rw [List.length_drop]; omega
          rw [ih (rest.drop (erel + 1)) (base + erel + 2) hdrop]
          dsimp only [Except.map]
          rw [List.take_append_drop]
        | some (none, erel) =>
          dsimp only
          rw [ih rest (base + 1) h]
          rfl
        | none =>
          dsimp only
          rw [ih rest (base + 1) h]
          rfl
      · rw [resolveAux, if_neg hm, ih rest (base + 1) h]
        rfl

/-- Claim C3, amended: with an empty resolutions mapping
`resolve_conflict` returns the `'\n'`-join of `merged_content`'s lines —
the content itself whenever the content carries no trailing line
terminator and uses only `'\n'` terminators. -/
theorem resolve_empty_resolutions (mergedContent : String) :
    resolveConflict mergedContent [] =
      .ok (String.intercalate "\n" (pySplitlines mergedContent)) := by
  show Except.map (String.intercalate "\n")
    (resolveAux [] (pySplitlines mergedContent).length (pySplitlines mergedContent) 0) = _
  rw [resolveAux_empty_res (pySplitlines mergedContent).length (pySplitlines mergedContent) 0
    (le_refl _)]
  rfl

/-- Claim C3 (as stated) is refuted: on `"a\n"` (one line with a
trailing newline) the empty-resolutions round trip returns `"a"`, not
the original string. -/
theorem resolve_empty_resolutions_counterexample :
    resolveConflict "a\n" [] = .ok "a" ∧ "a" ≠ "a\n" := by
  constructor
  · rfl
  · decide

theorem scanBlock_none :
    ∀ (ls : List String) (j : Nat) (mid : Option Nat),
      (∀ l ∈ ls, l ≠ ">>>>>>> SOURCE") → scanBlock ls j mid = none := by
  intro ls
  induction ls with
  | nil => intro j mid _; rfl
  | cons l rest ih =>
    intro j mid h
    have hl := h l (List.mem_cons_self l rest)
    have hrest : ∀ x ∈ rest, x ≠ ">>>>>>> SOURCE" := fun x hx => h x (List.mem_cons_of_mem l hx)
    by_cases he : l = "======="
    · rw [scanBlock, if_pos he]
      exact ih (j + 1) (some j) hrest
    · rw [scanBlock, if_neg he, if_neg hl]
      exact ih (j + 1) mid hrest

theorem resolveAux_no_closing_marker (res : List (String × String)) :
    ∀ (fuel : Nat) (lines : List String) (base : Nat), lines.length ≤ fuel →
      (∀ l ∈ lines, l ≠ ">>>>>>> SOURCE") →
      resolveAux res fuel lines base = .ok lines := by
  intro fuel
  induction fuel with
  | zero =>
    intro lines base h _
    rw [Nat.le_zero, List.length_eq_zero] at h
    subst h
    rfl
  | succ fuel ih =>
    intro lines base h hns
    match lines with
    | [] => rfl
    | line :: rest =>
      simp only [List.length_cons, Nat.succ_le_succ_iff] at h
      have hrest : ∀ x ∈ rest, x ≠ ">>>>>>> SOURCE" :=
        fun x hx => hns x (List.mem_cons_of_mem line hx)
      by_cases hm : line = "<<<<<<< TARGET"
      · rw [resolveAux, if_pos hm, scanBlock_none rest 0 none hrest]
        dsimp only
        rw [ih rest (base + 1) h hrest]
        rfl
      · rw [resolveAux, if_neg hm, ih rest (base + 1) h hrest]
        rfl

/-- Claim C4, amended: `resolve_conflict` does not fail on a truncated
delimiter block — there is no `MalformedConflictError` anywhere in the
code. When no closing `">>>>>>> SOURCE"` line exists, every line
(including any orphaned opening marker) is passed through unchanged, for
any resolutions mapping. -/
theorem resolve_truncated_block_passes_through (mergedContent : String)
    (res : List (String × String))
    (h : ∀ l ∈ pySplitlines mergedContent, l ≠ ">>>>>>> SOURCE") :
    resolveConflict mergedContent res =
      .ok (String.intercalate "\n" (pySplitlines mergedContent)) := by
  show Except.map (String.intercalate "\n")
    (resolveAux res (pySplitlines mergedContent).length (pySplitlines mergedContent) 0) = _
  rw [resolveAux_no_closing_marker res (pySplitlines mergedContent).length
    (pySplitlines mergedContent) 0 (le_refl _) h]
  rfl

theorem resolve_truncated_block_passes_through_witness :
    resolveConflict "<<<<<<< TARGET\nfoo" [("0-5", "target")] =
      .ok (String.intercalate "\n" (pySplitlines "<<<<<<< TARGET\nfoo")) :=
  resolve_truncated_block_passes_through "<<<<<<< TARGET\nfoo" [("0-5", "target")] (by decide)

/-- Claim C4 (as stated) is refuted: on a merged content consisting of a
lone opening marker and one more line, `resolve_conflict` returns a
result (the input unchanged) instead of failing. -/
theorem resolve_truncated_block_counterexample :
    resolveConflict "<<<<<<< TARGET\nfoo" [] = .ok "<<<<<<< TARGET\nfoo" := by
  rfl

theorem scanBlock_src (post : List String) :
    ∀ (src : List String) (j m : Nat),
      (∀ l ∈ src, l ≠ "=======" ∧ l ≠ ">>>>>>> SOURCE") →
      scanBlock (src ++ [">>>>>>> SOURCE"] ++ post) j (some m) =
        some (some m, j + src.length) := by
  intro src
  induction src with
  | nil =>
    intro j m _
    show scanBlock (">>>>>>> SOURCE" :: post) j (some m) = _
    rw [scanBlock, if_neg (by decide), if_pos rfl]
    rfl
  | cons l rest ih =>
    intro j m h
    obtain ⟨h1, h2⟩ := h l (List.mem_cons_self l rest)
    show scanBlock (l :: (rest ++ [">>>>>>> SOURCE"] ++ post)) j (some m) = _
    rw [scanBlock, if_neg h1, if_neg h2,
      ih (j + 1) m (fun x hx => h x (List.mem_cons_of_mem l hx)),
      (show j + 1 + rest.length = j + (l :: rest).length by
        simp only [List.length_cons]; omega)]

theorem scanBlock_tgt (src post : List String)
    (hsrc : ∀ l ∈ src, l ≠ "=======" ∧ l ≠ ">>>>>>> SOURCE") :
    ∀ (tgt : List String) (j : Nat) (mid : Option Nat),
      (∀ l ∈ tgt, l ≠ "=======" ∧ l ≠ ">>>>>>> SOURCE") →
      scanBlock (tgt ++ ["======="] ++ src ++ [">>>>>>> SOURCE"] ++ post) j mid =
        some (some (j + tgt.length), j + tgt.length + 1 + src.length) := by
  intro tgt
  induction tgt with
  | nil =>
    intro j mid _
    show scanBlock ("=======" :: (src ++ [">>>>>>> SOURCE"] ++ post)) j mid = _
    rw [scanBlock, if_pos rfl, scanBlock_src post src (j + 1) j hsrc]
    rfl
  | cons l rest ih =>
    intro j mid h
    obtain ⟨h1, h2⟩ := h l (List.mem_cons_self l rest)
    show scanBlock (l :: (rest ++ ["======="] ++ src ++ [">>>>>>> SOURCE"] ++ post)) j mid = _
    rw [scanBlock, if_neg h1, if_neg h2,
      ih (j + 1) mid (fun x hx => h x (List.mem_cons_of_mem l hx)),
      (show j + 1 + rest.length = j + (l :: rest).length by
        simp only [List.length_cons]; omega)]

theorem resolveAux_custom_missing (res : List (String × String))
    (tgt src post : List String)
    (htgt : ∀ l ∈ tgt, l ≠ "=======" ∧ l ≠ ">>>>>>> SOURCE")
    (hsrc : ∀ l ∈ src, l ≠ "=======" ∧ l ≠ ">>>>>>> SOURCE") :
    ∀ (pre : List String) (fuel base : Nat),
      (pre ++ ["<<<<<<< TARGET"] ++ tgt ++ ["======="] ++ src ++ [">>>>>>> SOURCE"] ++ post).length
        ≤ fuel →
      (∀ l ∈ pre, l ≠ "<<<<<<< TARGET") →
      res.lookup (toString (base + pre.length) ++ "-" ++
        toString (base + pre.length + tgt.length + src.length + 2)) = some "custom" →
      res.lookup (toString (base + pre.length) ++ "-" ++
        toString (base + pre.length + tgt.length + src.length + 2) ++ "_custom") = none →
      resolveAux res fuel
          (pre ++ ["<<<<<<< TARGET"] ++ tgt ++ ["======="] ++ src ++ [">>>>>>> SOURCE"] ++ post)
          base =
        .error (.keyError (toString (base + pre.length) ++ "-" ++
          toString (base + pre.length + tgt.length + src.length + 2) ++ "_custom")) := by
  intro pre
  induction pre with
  | nil =>
    intro fuel base hfuel _ hchoice hcomp
    simp only [List.nil_append, List.length_nil, Nat.add_zero] at hfuel hchoice hcomp ⊢
    cases fuel with
    | zero => exact absurd hfuel (by simp)
    | succ f =>
      show resolveAux res (f + 1)
        ("<<<<<<< TARGET" :: (tgt ++ ["======="] ++ src ++ [">>>>>>> SOURCE"] ++ post)) base = _
      rw [resolveAux, if_pos rfl, scanBlock_tgt src post hsrc tgt 0 none htgt]
      dsimp only
      rw [(by omega : base + 1 + (0 + tgt.length + 1 + src.length)
            = base + tgt.length + src.length + 2)]
      rw [hchoice]
      dsimp only
      rw [if_neg (by decide), if_neg (by decide), if_neg (by decide), if_pos rfl, hcomp]
  | cons l pre ih =>
    intro fuel base hfuel hpre hchoice hcomp
    cases fuel with
    | zero => exact absurd hfuel (by simp)
    | succ f =>
      have harith : base + (l :: pre).length = base + 1 + pre.length := by
        simp only [List.length_cons]; omega
      rw [harith] at hchoice hcomp
      show resolveAux res (f + 1)
        (l :: (pre ++ ["<<<<<<< TARGET"] ++ tgt ++ ["======="] ++ src ++ [">>>>>>> SOURCE"] ++ post))
        base = _
      rw [resolveAux, if_neg (hpre l (List.mem_cons_self l pre)),
        ih f (base + 1)
          (by simp only [List.cons_append, List.length_cons] at hfuel; omega)
          (fun x hx => hpre x (List.mem_cons_of_mem l hx)) hchoice hcomp]
      rw [harith]
      rfl

/-- Claim C10: when a well-formed conflict block's resolution choice is
`"custom"` but the companion `"<id>_custom"` key is absent,
`resolve_conflict` fails with a key-lookup error (Python `KeyError`)
instead of producing text. -/
theorem resolve_custom_without_companion (mc : String) (res : List (String × String))
    (pre tgt src post : List String)
    (hsplit : pySplitlines mc =
      pre ++ ["<<<<<<< TARGET"] ++ tgt ++ ["======="] ++ src ++ [">>>>>>> SOURCE"] ++ post)
    (hpre : ∀ l ∈ pre, l ≠ "<<<<<<< TARGET")
    (htgt : ∀ l ∈ tgt, l ≠ "=======" ∧ l ≠ ">>>>>>> SOURCE")
    (hsrc : ∀ l ∈ src, l ≠ "=======" ∧ l ≠ ">>>>>>> SOURCE")
    (hchoice : res.lookup (toString pre.length ++ "-" ++
      toString (pre.length + tgt.length + src.length + 2)) = some "custom")
    (hcomp : res.lookup (toString pre.length ++ "-" ++
      toString (pre.length + tgt.length + src.length + 2) ++ "_custom") = none) :
    resolveConflict mc res = .error (.keyError (toString pre.length ++ "-" ++
      toString (pre.length + tgt.length + src.length + 2) ++ "_custom")) := by
  show Except.map (String.intercalate "\n")
    (resolveAux res (pySplitlines mc).length (pySplitlines mc) 0) = _
  rw [hsplit]
  have hchoice0 : res.lookup (toString ((0 : Nat) + pre.length) ++ "-" ++
      toString ((0 : Nat) + pre.length + tgt.length + src.length + 2)) = some "custom" := by
    rw [Nat.zero_add]; exact hchoice
  have hcomp0 : res.lookup (toString ((0 : Nat) + pre.length) ++ "-" ++
      toString ((0 : Nat) + pre.length + tgt.length + src.length + 2) ++ "_custom") = none := by
    rw [Nat.zero_add]; exact hcomp
  rw [resolveAux_custom_missing res tgt src post htgt hsrc pre _ 0 (le_refl _) hpre
    hchoice0 hcomp0]
  rw [Nat.zero_add]
  rfl

theorem resolve_custom_without_companion_witness :
    resolveConflict "<<<<<<< TARGET\nt\n=======\ns\n>>>>>>> SOURCE" [("0-4", "custom")] =
      .error (.keyError "0-4_custom") := by
  have h := resolve_custom_without_companion
    "<<<<<<< TARGET\nt\n=======\ns\n>>>>>>> SOURCE" [("0-4", "custom")]
    [] ["t"] ["s"] [] (by decide) (by decide) (by decide) (by decide) (by decide) (by decide)
  exact h

/-! ## `difflib.SequenceMatcher`

The merge and diff routines rely on `difflib.SequenceMatcher(None, a, b)`
(for lines, words and characters) and on `difflib.Differ` built on top of
it. Both are embedded below, generically over the element type.

The code always passes `isjunk = None`, so the junk set is empty; the
`junk` parameter is still carried so the four extension loops of
`find_longest_match` keep their exact source shape. `autojunk` is left at
its default `True`: with `len(b) >= 200`, elements occurring more than
`len(b) // 100 + 1` times are dropped from the index `b2j`. -/

/-- A matching block `(i, j, size)`: `a[i : i+size] == b[j : j+size]`. -/
structure MBlock where
  i : Nat
  j : Nat
  size : Nat
deriving Repr, DecidableEq

/-- The index `self.b2j`: for an element `e`, the ascending list of
positions of `e` in `b` — empty when `e` is junk or (autojunk) popular. -/
def b2j [DecidableEq α] (b : List α) (junk : α → Bool) (e : α) : List Nat :=
  if junk e ∨ (200 ≤ b.length ∧ b.length / 100 + 1 < b.countP (fun x => decide (x = e))) then []
  else (List.range b.length).filter (fun j => decide (b.getD j e = e))

/-- One row of the `find_longest_match` dynamic program: iterate over
`b2j[a[i]]` (skipping `j < blo`, stopping at `j ≥ bhi`), building the new
`j2len` function and updating the running best block. `prev` is the
previous row's `j2len` (total, defaulting to 0 like `dict.get`). -/
def rowLoop (i : Nat) (prev : Nat → Nat) (blo bhi : Nat) :
    List Nat → (Nat → Nat) → MBlock → (Nat → Nat) × MBlock
  | [], f, best => (f, best)
  | j :: js, f, best =>
    if j < blo then rowLoop i prev blo bhi js f best
    else if bhi ≤ j then (f, best)
    else
      let k := if j = 0 then 1 else prev (j - 1) + 1
      rowLoop i prev blo bhi js (fun x => if x = j then k else f x)
        (if best.size < k then ⟨i + 1 - k, j + 1 - k, k⟩ else best)

/-- The row phase of `find_longest_match`: process rows
`i, i+1, …, i+cnt-1`, threading `j2len` and the best block. -/
def dpRows [DecidableEq α] [Inhabited α] (a b : List α) (junk : α → Bool) (blo bhi : Nat) :
    Nat → Nat → (Nat → Nat) → MBlock → MBlock
  | _, 0, _, best => best
  | i, cnt + 1, prev, best =>
    let st := rowLoop i prev blo bhi (b2j b junk (a.getD i default)) (fun _ => 0) best
    dpRows a b junk blo bhi (i + 1) cnt st.1 st.2

/-- First extension loop: grow the block backwards over non-junk matching
elements. The iteration count argument starts at `m.i`, an exact bound:
each pass decreases `m.i` by one and the guard fails at `m.i = 0`. -/
def extendBackNonJunk [DecidableEq α] [Inhabited α] (a b : List α) (junk : α → Bool)
    (alo blo : Nat) : Nat → MBlock → MBlock
  | 0, m => m
  | cnt + 1, m =>
    if alo < m.i ∧ blo < m.j ∧ junk (b.getD (m.j - 1) default) = false ∧
        a.getD (m.i - 1) default = b.getD (m.j - 1) default then
      extendBackNonJunk a b junk alo blo cnt ⟨m.i - 1, m.j - 1, m.size + 1⟩
    else m

/-- Second extension loop: grow the block forwards over non-junk matching
elements. The iteration count argument starts at `ahi`, an upper bound:
each pass increases `m.i + m.size`, which the guard keeps below `ahi`. -/
def extendFwdNonJunk [DecidableEq α] [Inhabited α] (a b : List α) (junk : α → Bool)
    (ahi bhi : Nat) : Nat → MBlock → MBlock
  | 0, m => m
  | cnt + 1, m =>
    if m.i + m.size < ahi ∧ m.j + m.size < bhi ∧
        junk (b.getD (m.j + m.size) default) = false ∧
        a.getD (m.i + m.size) default = b.getD (m.j + m.size) default then
      extendFwdNonJunk a b junk ahi bhi cnt ⟨m.i, m.j, m.size + 1⟩
    else m

/-- Third extension loop (junk variant of the first). -/
def extendBackJunk [DecidableEq α] [Inhabited α] (a b : List α) (junk : α → Bool)
    (alo blo : Nat) : Nat → MBlock → MBlock
  | 0, m => m
  | cnt + 1, m =>
    if alo < m.i ∧ blo < m.j ∧ junk (b.getD (m.j - 1) default) = true ∧
        a.getD (m.i - 1) default = b.getD (m.j - 1) default then
      extendBackJunk a b junk alo blo cnt ⟨m.i - 1, m.j - 1, m.size + 1⟩
    else m

/-- Fourth extension loop (junk variant of the second). -/
def extendFwdJunk [DecidableEq α] [Inhabited α] (a b : List α) (junk : α → Bool)
    (ahi bhi : Nat) : Nat → MBlock → MBlock
  | 0, m => m
  | cnt + 1, m =>
    if m.i + m.size < ahi ∧ m.j + m.size < bhi ∧
        junk (b.getD (m.j + m.size) default) = true ∧
        a.getD (m.i + m.size) default = b.getD (m.j + m.size) default then
      extendFwdJunk a b junk ahi bhi cnt ⟨m.i, m.j, m.size + 1⟩
    else m

/-- `SequenceMatcher.find_longest_match(alo, ahi, blo, bhi)`. -/
def findLongestMatch [DecidableEq α] [Inhabited α] (a b : List α) (junk : α → Bool)
    (alo ahi blo bhi : Nat) : MBlock :=
  let m0 := dpRows a b junk blo bhi alo (ahi - alo) (fun _ => 0) ⟨alo, blo, 0⟩
  let m1 := extendBackNonJunk a b junk alo blo m0.i m0
  let m2 := extendFwdNonJunk a b junk ahi bhi ahi m1
  let m3 := extendBackJunk a b junk alo blo m2.i m2
  let m4 := extendFwdJunk a b junk ahi bhi ahi m3
  m4

/-- The recursion of `get_matching_blocks` over sub-rectangles. The
Python version explores the rectangles through a LIFO queue collecting
blocks in arbitrary order and then sorts them by `(i, j, size)`; since
the blocks of the left sub-rectangle all have `i < m.i` and those of the
right one `i ≥ m.i + m.size > m.i`, an in-order traversal produces
exactly that sorted list directly. The recursion-depth argument is
decremented per level; each level strictly shrinks
`(ahi - alo) + (bhi - blo)`, so `a.length + b.length + 1` levels always
suffice. -/
def matchingBlocksAux [DecidableEq α] [Inhabited α] (a b : List α) (junk : α → Bool) :
    Nat → Nat → Nat → Nat → Nat → List MBlock
  | 0, _, _, _, _ => []
  | depth + 1, alo, ahi, blo, bhi =>
    let m := findLongestMatch a b junk alo ahi blo bhi
    if m.size = 0 then []
    else
      (if alo < m.i ∧ blo < m.j then matchingBlocksAux a b junk depth alo m.i blo m.j else [])
        ++ [m]
        ++ (if m.i + m.size < ahi ∧ m.j + m.size < bhi then
              matchingBlocksAux a b junk depth (m.i + m.size) ahi (m.j + m.size) bhi
            else [])

/-- The second phase of `get_matching_blocks`: collapse adjacent blocks.
`cur` is the running `(i1, j1, k1)` triple, initially `(0, 0, 0)`. -/
def mergeAdjacent : MBlock → List MBlock → List MBlock
  | cur, [] => if cur.size ≠ 0 then [cur] else []
  | cur, blk :: rest =>
    if cur.i + cur.size = blk.i ∧ cur.j + cur.size = blk.j then
      mergeAdjacent ⟨cur.i, cur.j, cur.size + blk.size⟩ rest
    else if cur.size ≠ 0 then cur :: mergeAdjacent blk rest
    else mergeAdjacent blk rest

/-- `SequenceMatcher.get_matching_blocks` (with the terminal sentinel
`(len(a), len(b), 0)` appended). -/
def getMatchingBlocks [DecidableEq α] [Inhabited α] (a b : List α) (junk : α → Bool) :
    List MBlock :=
  mergeAdjacent ⟨0, 0, 0⟩
      (matchingBlocksAux a b junk (a.length + b.length + 1) 0 a.length 0 b.length)
    ++ [⟨a.length, b.length, 0⟩]

inductive OpTag where
  | equal
  | replace
  | delete
  | insert
deriving Repr, DecidableEq

structure Opcode where
  tag : OpTag
  i1 : Nat
  i2 : Nat
  j1 : Nat
  j2 : Nat
deriving Repr, DecidableEq

/-- The loop of `get_opcodes` over the matching blocks. -/
def opcodesLoop : Nat → Nat → List MBlock → List Opcode
  | _, _, [] => []
  | i, j, blk :: rest =>
    (if i < blk.i ∧ j < blk.j then [⟨.replace, i, blk.i, j, blk.j⟩]
     else if i < blk.i then [⟨.delete, i, blk.i, j, blk.j⟩]
     else if j < blk.j then [⟨.insert, i, blk.i, j, blk.j⟩]
     else [])
      ++ (if blk.size ≠ 0 then
            [⟨.equal, blk.i, blk.i + blk.size, blk.j, blk.j + blk.size⟩]
          else [])
      ++ opcodesLoop (blk.i + blk.size) (blk.j + blk.size) rest

/-- `SequenceMatcher.get_opcodes`. -/
def getOpcodes [DecidableEq α] [Inhabited α] (a b : List α) (junk : α → Bool) : List Opcode :=
  opcodesLoop 0 0 (getMatchingBlocks a b junk)

/-- `SequenceMatcher.ratio`, with Python's float `2.0 * M / T` replaced
by the exact rational (the comparisons made against it in `Differ` use
the constants 0.74 and 0.75, far from any float-rounding boundary hit by
these small ratios). -/
def smRatio [DecidableEq α] [Inhabited α] (a b : List α) (junk : α → Bool) : Rat :=
  let msum := ((getMatchingBlocks a b junk).map MBlock.size).sum
  if a.length + b.length = 0 then 1
  else mkRat (2 * msum) (a.length + b.length)

example :
    getMatchingBlocks "qabxcd".data "abycd".data (fun _ => false) =
      [⟨1, 0, 2⟩, ⟨4, 3, 2⟩, ⟨6, 5, 0⟩] := by decide

example :
    getOpcodes "qabxcd".data "abycd".data (fun _ => false) =
      [⟨.delete, 0, 1, 0, 0⟩, ⟨.equal, 1, 3, 0, 2⟩, ⟨.replace, 3, 4, 2, 3⟩,
        ⟨.equal, 4, 6, 3, 5⟩] := by decide

example : smRatio "abcd".data "bcde".data (fun _ => false) = mkRat 3 4 := by decide

example :
    getOpcodes ["A", "B"] ["X", "B"] (fun _ => false) =
      [⟨.replace, 0, 1, 0, 1⟩, ⟨.equal, 1, 2, 1, 2⟩] := by decide

/-! ## `difflib.Differ`

`merge_changes` uses `difflib.Differ()` (so `linejunk = charjunk = None`)
for its three-way mode. `Differ.compare` dispatches on the line-level
opcodes; `replace` opcodes go through `_fancy_replace`, which hunts for
the most similar line pair by character-level `ratio()`. -/

/-- `Differ._dump`: tag every line of the slice. Python's
`'%s %s' % (tag, x)` is `tag ++ " " ++ x`. -/
def dump (tag : String) (l : List String) (lo hi : Nat) : List String :=
  (pySlice l lo hi).map (fun x => tag ++ " " ++ x)

/-- `Differ._plain_replace`: dump the shorter block first. -/
def plainReplace (a b : List String) (alo ahi blo bhi : Nat) : List String :=
  if bhi - blo < ahi - alo then dump "+" b blo bhi ++ dump "-" a alo ahi
  else dump "-" a alo ahi ++ dump "+" b blo bhi

/-- The running state of `_fancy_replace`'s search: the best ratio so
far (initially 0.74), the indices of the best pair, and the first
identical pair. -/
structure FancyState where
  bestRatio : Rat
  best : Option (Nat × Nat)
  eq : Option (Nat × Nat)
deriving Repr, DecidableEq

/-- The double loop of `_fancy_replace`. Python guards the update with
`real_quick_ratio() > best_ratio and quick_ratio() > best_ratio and
ratio() > best_ratio`; the quick ratios are upper bounds on `ratio()`,
so the conjunction holds exactly when `ratio() > best_ratio`. -/
def fancyScan (a b : List String) (alo ahi blo bhi : Nat) : FancyState :=
  (List.range' blo (bhi - blo)).foldl (fun st j =>
    (List.range' alo (ahi - alo)).foldl (fun st i =>
      let ai := a.getD i ""
      let bj := b.getD j ""
      if ai = bj then
        if st.eq = none then { st with eq := some (i, j) } else st
      else
        let r := smRatio ai.data bj.data (fun _ => false)
        if st.bestRatio < r then { st with bestRatio := r, best := some (i, j) }
        else st) st)
    { bestRatio := mkRat 74 100, best := none, eq := none }

/-- The intraline tag strings of `_fancy_replace`'s synch-pair marking,
driven by the character-level opcodes. -/
def tagStrings (aelt belt : String) : String × String :=
  (getOpcodes aelt.data belt.data (fun _ => false)).foldl (fun ab op =>
    match op.tag with
    | .replace => (ab.1 ++ String.mk (List.replicate (op.i2 - op.i1) '^'),
                   ab.2 ++ String.mk (List.replicate (op.j2 - op.j1) '^'))
    | .delete => (ab.1 ++ String.mk (List.replicate (op.i2 - op.i1) '-'), ab.2)
    | .insert => (ab.1, ab.2 ++ String.mk (List.replicate (op.j2 - op.j1) '+'))
    | .equal => (ab.1 ++ String.mk (List.replicate (op.i2 - op.i1) ' '),
                 ab.2 ++ String.mk (List.replicate (op.j2 - op.j1) ' ')))
    ("", "")

/-- `difflib._keep_original_ws` (zip truncates at the shorter string,
like Python's `zip`). -/
def keepOriginalWS (s tags : String) : String :=
  String.mk ((s.data.zip tags.data).map (fun ct =>
    if ct.2 = ' ' ∧ pyIsSpace ct.1 then ct.1 else ct.2))

/-- `Differ._qformat` (the `"? "` guide lines carry an explicit
trailing `"\n"` in the source). -/
def qformat (aline bline : String) : List String :=
  let ts := tagStrings aline bline
  let atags := pyRstrip (keepOriginalWS aline ts.1)
  let btags := pyRstrip (keepOriginalWS bline ts.2)
  ["- " ++ aline]
    ++ (if atags ≠ "" then ["? " ++ atags ++ "\n"] else [])
    ++ ["+ " ++ bline]
    ++ (if btags ≠ "" then ["? " ++ btags ++ "\n"] else [])

/-- `Differ._fancy_helper` with `_fancy_replace` inlined as its
both-ranges-nonempty case (which is how `_fancy_replace` is reached:
either from a nonempty `replace` opcode or from this very guard). The
recursion-depth argument shrinks by one per level while each recursive
call strictly shrinks `(ahi - alo) + (bhi - blo)` (the synch pair lies
inside both ranges), so the initial depth passed below always suffices.
The `none` fallback in the second match is unreachable: `bestRatio`
exceeds the 0.75 cutoff only after an update that also sets `best`. -/
def fancyHelper (a b : List String) : Nat → Nat → Nat → Nat → Nat → List String
  | 0, _, _, _, _ => []
  | depth + 1, alo, ahi, blo, bhi =>
    if alo < ahi then
      if blo < bhi then
        let st := fancyScan a b alo ahi blo bhi
        if st.bestRatio < mkRat 75 100 then
          match st.eq with
          | none => plainReplace a b alo ahi blo bhi
          | some (ei, ej) =>
            fancyHelper a b depth alo ei blo ej
              ++ ["  " ++ a.getD ei ""]
              ++ fancyHelper a b depth (ei + 1) ahi (ej + 1) bhi
        else
          match st.best with
          | some (bi, bj) =>
            fancyHelper a b depth alo bi blo bj
              ++ qformat (a.getD bi "") (b.getD bj "")
              ++ fancyHelper a b depth (bi + 1) ahi (bj + 1) bhi
          | none => plainReplace a b alo ahi blo bhi
      else dump "-" a alo ahi
    else if blo < bhi then dump "+" b blo bhi
    else []

/-- `Differ.compare` (on already-split line lists). -/
def pyCompare (a b : List String) : List String :=
  (getOpcodes a b (fun _ => false)).foldl (fun acc op =>
    acc ++ match op.tag with
    | .replace => fancyHelper a b (op.i2 - op.i1 + (op.j2 - op.j1) + 1) op.i1 op.i2 op.j1 op.j2
    | .delete => dump "-" a op.i1 op.i2
    | .insert => dump "+" b op.j1 op.j2
    | .equal => dump " " a op.i1 op.i2) []

example : pyCompare ["A", "B"] ["X", "B"] = ["- A", "+ X", "  B"] := by decide

example : pyCompare ["A", "B"] ["A", "Y"] = ["  A", "- B", "+ Y"] := by decide

example : pyCompare ["abcdef"] ["abcdef1"] =
    ["- abcdef", "+ abcdef1", "?       +\n"] := by decide

/-! ## `VersionController.merge_changes` -/

/-- A conflict record; `merge_changes` builds dictionaries of two
different shapes depending on the mode. -/
inductive Conflict where
  | threeWay (line : Nat) (target source : String)
  | twoWay (r1 r2 : Nat) (target source : List String)
deriving Repr, DecidableEq

/-- One iteration of the three-way walk of `merge_changes` (index `i`
over the two `Differ` outputs `dt`/`ds`, accumulating merged lines and
conflicts). -/
def threeWayStep (dt ds : List String) (acc : List String × List Conflict) (i : Nat) :
    List String × List Conflict :=
  if i < dt.length ∧ i < ds.length then
    let t := dt.getD i ""
    let s := ds.getD i ""
    if t = s then
      if pyStartswith t "- " = false then (acc.1 ++ [pyDrop t 2], acc.2) else acc
    else if pyStartswith t "+ " ∧ pyStartswith s "  " then (acc.1 ++ [pyDrop t 2], acc.2)
    else if pyStartswith s "+ " ∧ pyStartswith t "  " then (acc.1 ++ [pyDrop s 2], acc.2)
    else if pyStartswith t "+ " ∧ pyStartswith s "+ " then
      (acc.1 ++ ["<<<<<<< TARGET", pyDrop t 2, "=======", pyDrop s 2, ">>>>>>> SOURCE"],
       acc.2 ++ [.threeWay i (pyDrop t 2) (pyDrop s 2)])
    else acc
  else if i < dt.length then
    let t := dt.getD i ""
    if pyStartswith t "- " = false then (acc.1 ++ [pyDrop t 2], acc.2) else acc
  else
    let s := ds.getD i ""
    if pyStartswith s "- " = false then (acc.1 ++ [pyDrop s 2], acc.2) else acc

/-- The three-way mode of `merge_changes`: diff the ancestor against
each side with `Differ`, then walk the two diff outputs by raw index. -/
def mergeLinesThreeWay (ancestor target source : List String) :
    List String × List Conflict :=
  let dt := pyCompare ancestor target
  let ds := pyCompare ancestor source
  (List.range (max dt.length ds.length)).foldl (threeWayStep dt ds) ([], [])

/-- The two-way mode of `merge_changes`: walk the line-level opcodes of
`SequenceMatcher(None, target_lines, source_lines)`. -/
def mergeLinesTwoWay (targetLines sourceLines : List String) :
    List String × List Conflict :=
  (getOpcodes targetLines sourceLines (fun _ => false)).foldl (fun acc op =>
    match op.tag with
    | .equal => (acc.1 ++ pySlice targetLines op.i1 op.i2, acc.2)
    | .replace =>
      (acc.1 ++ ["<<<<<<< TARGET"] ++ pySlice targetLines op.i1 op.i2 ++ ["======="]
        ++ pySlice sourceLines op.j1 op.j2 ++ [">>>>>>> SOURCE"],
       acc.2 ++ [.twoWay op.i1 op.i2 (pySlice targetLines op.i1 op.i2)
         (pySlice sourceLines op.j1 op.j2)])
    | .delete => (acc.1 ++ pySlice targetLines op.i1 op.i2, acc.2)
    | .insert => (acc.1 ++ pySlice sourceLines op.j1 op.j2, acc.2)) ([], [])

/-- `VersionController.merge_changes(doc_id, source_doc_id,
source_version)`: read the source (at `source_version`) and the target
(at its current version); when the source's `branched_from` names the
target, read the recorded ancestor version and use three-way mode —
`if common_ancestor_content:` is Python truthiness, so an empty ancestor
line list falls back to two-way mode. -/
def mergeChanges (targetId : String) (target source : DocState)
    (sourceVersion : Option Nat) : Except PyErr (String × List Conflict) := do
  let sourceRead ← getDocument source sourceVersion
  let targetRead ← getDocument target none
  let sourceLines := pySplitlines sourceRead.1
  let targetLines := pySplitlines targetRead.1
  let ancestorLines : Option (List String) ←
    match sourceRead.2.branchedFrom with
    | some bi =>
      if bi.docId = targetId then do
        let ancRead ← getDocument target (some bi.version)
        pure (some (pySplitlines ancRead.1))
      else pure none
    | none => pure none
  let result :=
    match ancestorLines with
    | some (l :: ls) => mergeLinesThreeWay (l :: ls) targetLines sourceLines
    | _ => mergeLinesTwoWay targetLines sourceLines
  pure (String.intercalate "\n" result.1, result.2)

/-- `VersionController.create_branch`: read the source at
`from_version`, create a fresh document with the same content and the
derived name, then attach the `branched_from` record. Python's
`from_version if from_version else metadata["current_version"]` treats
both `None` and `0` as falsy. -/
def createBranch (sourceId : String) (source : DocState) (branchName : String)
    (fromVersion : Option Nat) (ts : String) : Except PyErr DocState := do
  let srcRead ← getDocument source fromVersion
  let newDoc := createDocument srcRead.1 (srcRead.2.name ++ " - " ++ branchName)
    srcRead.2.dtype ts
  let recVersion :=
    match fromVersion with
    | none => srcRead.2.currentVersion
    | some 0 => srcRead.2.currentVersion
    | some v => v
  pure { newDoc with
    meta := { newDoc.meta with branchedFrom := some ⟨sourceId, recVersion, srcRead.2.name⟩ } }

/-- Claim C1 (refuted by the code): a three-way merge where the target
edits only line 1 (`A → X`) and the branched source edits only line 2
(`B → Y`) — disjoint ranges relative to the shared ancestor `A\nB` —
returns zero conflicts but merged content `"Y"`: the target's
modification (and the common line `B`) is silently dropped, because the
walk pairs the two diff outputs by raw list index. -/
theorem merge_three_way_drops_disjoint_edit :
    (do
      let docB0 ← createBranch "docA" (createDocument "A\nB" "DocA" "txt" "t0")
        "branch" none "t0"
      mergeChanges "docA"
        (updateDocument (createDocument "A\nB" "DocA" "txt" "t0") "X\nB" "edit 1" "t1").2
        (updateDocument docB0 "A\nY" "edit 2" "t1").2
        none : Except PyErr (String × List Conflict))
      = .ok ("Y", []) ∧
    "X" ∉ pySplitlines "Y" := by
  exact ⟨by decide, by decide⟩

/-! ## Correctness facts about the embedded `SequenceMatcher`

The word-diff reconstruction property (claim C9) rests on two facts
about `get_opcodes`: every `equal` opcode really aligns equal slices,
and the opcodes tile both inputs from start to end. Both follow from the
matching blocks being genuine, in-bounds, ordered matches. -/

theorem getD_eq_getElem' [Inhabited α] (l : List α) (n : Nat) (d : α) (h : n < l.length) :
    l.getD n d = l[n] := by
  simp [List.getD_eq_getElem?_getD, List.getElem?_eq_getElem h]

theorem pySlice_to_end (l : List α) (i : Nat) : pySlice l i l.length = l.drop i := by
  unfold pySlice
  apply List.take_of_length_le
  rw [List.length_drop]

theorem pySlice_append_drop (l : List α) (i j : Nat) (hij : i ≤ j) :
    pySlice l i j ++ l.drop j = l.drop i := by
  unfold pySlice
  have h : l.drop j = (l.drop i).drop (j - i) := by
    rw [List.drop_drop]
    congr 1
    omega
  rw [h, List.take_append_drop]

/-- `a[blk.i + t] = b[blk.j + t]` for every offset `t` inside the block. -/
def MatchAt [Inhabited α] (a b : List α) (blk : MBlock) : Prop :=
  ∀ t < blk.size, a.getD (blk.i + t) default = b.getD (blk.j + t) default

theorem pySlice_eq_of_match [Inhabited α] {a b : List α} (blk : MBlock)
    (hm : MatchAt a b blk) (ha : blk.i + blk.size ≤ a.length)
    (hb : blk.j + blk.size ≤ b.length) :
    pySlice a blk.i (blk.i + blk.size) = pySlice b blk.j (blk.j + blk.size) := by
  unfold pySlice
  rw [(by omega : blk.i + blk.size - blk.i = blk.size),
    (by omega : blk.j + blk.size - blk.j = blk.size)]
  apply List.ext_getElem
  · rw [List.length_take, List.length_take, List.length_drop, List.length_drop]
    omega
  · intro t h1 h2
    have ht : t < blk.size := by
      rw [List.length_take, List.length_drop] at h1
      omega
    rw [List.getElem_take, List.getElem_drop, List.getElem_take, List.getElem_drop,
      ← getD_eq_getElem' a _ default (by omega), ← getD_eq_getElem' b _ default (by omega)]
    exact hm t ht

/-- The blocks form an in-bounds, genuinely matching, ordered chain
starting at `(loI, loJ)` and staying inside `(hiI, hiJ)`. -/
inductive ChainBlocks [Inhabited α] (a b : List α) : Nat → Nat → Nat → Nat → List MBlock → Prop
  | nil : ∀ {loI loJ hiI hiJ}, ChainBlocks a b loI loJ hiI hiJ []
  | cons : ∀ {loI loJ hiI hiJ blk rest},
      loI ≤ blk.i → loJ ≤ blk.j → 1 ≤ blk.size →
      blk.i + blk.size ≤ hiI → blk.j + blk.size ≤ hiJ →
      MatchAt a b blk →
      ChainBlocks a b (blk.i + blk.size) (blk.j + blk.size) hiI hiJ rest →
      ChainBlocks a b loI loJ hiI hiJ (blk :: rest)

theorem ChainBlocks.mono_lo [Inhabited α] {a b : List α} {loI loJ hiI hiJ : Nat}
    {bs : List MBlock} (h : ChainBlocks a b loI loJ hiI hiJ bs)
    {loI2 loJ2 : Nat} (h1 : loI2 ≤ loI) (h2 : loJ2 ≤ loJ) :
    ChainBlocks a b loI2 loJ2 hiI hiJ bs := by
  cases h with
  | nil => exact .nil
  | cons c1 c2 c3 c4 c5 c6 c7 => exact .cons (by omega) (by omega) c3 c4 c5 c6 c7

theorem ChainBlocks.append [Inhabited α] {a b : List α} :
    ∀ {loI loJ midI midJ : Nat} {xs : List MBlock},
      ChainBlocks a b loI loJ midI midJ xs →
      ∀ {hiI hiJ : Nat} {ys : List MBlock},
        ChainBlocks a b midI midJ hiI hiJ ys →
        loI ≤ midI → loJ ≤ midJ → midI ≤ hiI → midJ ≤ hiJ →
        ChainBlocks a b loI loJ hiI hiJ (xs ++ ys) := by
  intro loI loJ midI midJ xs hxs
  induction hxs with
  | nil => intro hiI hiJ ys hys h1 h2 _ _; exact hys.mono_lo h1 h2
  | cons c1 c2 c3 c4 c5 c6 _ ih =>
    intro hiI hiJ ys hys _ _ h3 h4
    exact .cons c1 c2 c3 (by omega) (by omega) c6 (ih hys c4 c5 h3 h4)

theorem mem_b2j [DecidableEq α] [Inhabited α] {b : List α} {junk : α → Bool} {e : α} {j : Nat}
    (h : j ∈ b2j b junk e) : j < b.length ∧ b.getD j default = e := by
  unfold b2j at h
  by_cases hc : junk e ∨
      (200 ≤ b.length ∧ b.length / 100 + 1 < b.countP (fun x => decide (x = e)))
  · rw [if_pos hc] at h; cases h
  · rw [if_neg hc] at h
    rw [List.mem_filter, List.mem_range] at h
    obtain ⟨hj, hp⟩ := h
    refine ⟨hj, ?_⟩
    have he := of_decide_eq_true hp
    rw [getD_eq_getElem' b j e hj] at he
    rw [getD_eq_getElem' b j default hj]
    exact he

/-- Invariant for a `j2len` map whose runs end at row `r`: a nonzero
entry at `j` is a genuine diagonal run of matches ending at `(r, j)`,
contained in the `blo`/`bhi` window and starting no earlier than row
`alo`. -/
def RunsEnd [Inhabited α] (a b : List α) (alo blo bhi r : Nat) (g : Nat → Nat) : Prop :=
  ∀ j, g j ≠ 0 →
    blo ≤ j ∧ j < bhi ∧ blo + g j ≤ j + 1 ∧ alo + g j ≤ r + 1 ∧
    ∀ t < g j, a.getD (r - t) default = b.getD (j - t) default

/-- `RunsEnd` for the previous row, seen from row `i` (for the first row
the map is constantly 0 and the condition is vacuous). -/
def PrevGood [Inhabited α] (a b : List α) (alo blo bhi i : Nat) (g : Nat → Nat) : Prop :=
  ∀ j, g j ≠ 0 →
    blo ≤ j ∧ j < bhi ∧ blo + g j ≤ j + 1 ∧ alo + g j ≤ i ∧
    ∀ t < g j, a.getD (i - 1 - t) default = b.getD (j - t) default

/-- A candidate best block: in window, in bounds, and a genuine match. -/
def GoodBest [Inhabited α] (a b : List α) (alo ahi blo bhi : Nat) (m : MBlock) : Prop :=
  alo ≤ m.i ∧ blo ≤ m.j ∧ m.i + m.size ≤ ahi ∧ m.j + m.size ≤ bhi ∧ MatchAt a b m

theorem rowLoop_good [Inhabited α] (a b : List α) (alo ahi blo bhi : Nat)
    (i : Nat) (prev : Nat → Nat) (hai : alo ≤ i) (hia : i < ahi)
    (hprev : PrevGood a b alo blo bhi i prev) :
    ∀ (js : List Nat) (f : Nat → Nat) (best : MBlock),
      (∀ j ∈ js, j < b.length ∧ b.getD j default = a.getD i default) →
      RunsEnd a b alo blo bhi i f → GoodBest a b alo ahi blo bhi best →
      RunsEnd a b alo blo bhi i (rowLoop i prev blo bhi js f best).1 ∧
      GoodBest a b alo ahi blo bhi (rowLoop i prev blo bhi js f best).2 := by
  intro js
  induction js with
  | nil => intro f best _ hf hbest; exact ⟨hf, hbest⟩
  | cons j js ih =>
    intro f best hmem hf hbest
    obtain ⟨hjb, hje⟩ := hmem j (List.mem_cons_self j js)
    have hmem2 : ∀ x ∈ js, x < b.length ∧ b.getD x default = a.getD i default :=
      fun x hx => hmem x (List.mem_cons_of_mem j hx)
    rw [rowLoop]
    by_cases h1 : j < blo
    · rw [if_pos h1]; exact ih f best hmem2 hf hbest
    · rw [if_neg h1]
      by_cases h2 : bhi ≤ j
      · rw [if_pos h2]; exact ⟨hf, hbest⟩
      · rw [if_neg h2]
        set k := if j = 0 then 1 else prev (j - 1) + 1 with hkdef
        have hkrun : blo + k ≤ j + 1 ∧ alo + k ≤ i + 1 ∧ 1 ≤ k ∧
            ∀ t < k, a.getD (i - t) default = b.getD (j - t) default := by
          by_cases hj0 : j = 0
          · rw [hkdef, if_pos hj0]
            subst hj0
            refine ⟨by omega, by omega, le_refl 1, ?_⟩
            intro t ht
            have ht0 : t = 0 := by omega
            subst ht0
            simpa using hje.symm
          · rw [hkdef, if_neg hj0]
            by_cases hp : prev (j - 1) = 0
            · rw [hp]
              refine ⟨by omega, by omega, le_refl 1, ?_⟩
              intro t ht
              have ht0 : t = 0 := by omega
              subst ht0
              simpa using hje.symm
            · obtain ⟨p1, p2, p3, p4, p5⟩ := hprev (j - 1) hp
              refine ⟨by omega, by omega, by omega, ?_⟩
              intro t ht
              match t with
              | 0 => simpa using hje.symm
              | t + 1 =>
                have h5 := p5 t (by omega)
                rw [(by omega : i - (t + 1) = i - 1 - t),
                  (by omega : j - (t + 1) = j - 1 - t)]
                exact h5
        apply ih _ _ hmem2
        · intro j2 hj2
          by_cases hjj : j2 = j
          · subst hjj
            simp only [if_pos rfl]
            exact ⟨by omega, by omega, hkrun.1, hkrun.2.1, hkrun.2.2.2⟩
          · simp only [if_neg hjj] at hj2 ⊢
            exact hf j2 hj2
        · by_cases hup : best.size < k
          · rw [if_pos hup]
            obtain ⟨q1, q2, q3, q4⟩ := hkrun
            refine ⟨?_, ?_, ?_, ?_, ?_⟩
            · show alo ≤ i + 1 - k
              omega
            · show blo ≤ j + 1 - k
              omega
            · show i + 1 - k + k ≤ ahi
              omega
            · show j + 1 - k + k ≤ bhi
              omega
            · intro t ht
              have ht2 : t < k := ht
              have e1 : i + 1 - k + t = i - (k - 1 - t) := by omega
              have e2 : j + 1 - k + t = j - (k - 1 - t) := by omega
              show a.getD (i + 1 - k + t) default = b.getD (j + 1 - k + t) default
              rw [e1, e2]
              exact q4 (k - 1 - t) (by omega)
          · rw [if_neg hup]
            exact hbest

theorem dpRows_good [DecidableEq α] [Inhabited α] (a b : List α) (junk : α → Bool)
    (alo ahi blo bhi : Nat) :
    ∀ (cnt i : Nat) (prev : Nat → Nat) (best : MBlock),
      alo ≤ i → i + cnt ≤ ahi →
      PrevGood a b alo blo bhi i prev →
      GoodBest a b alo ahi blo bhi best →
      GoodBest a b alo ahi blo bhi (dpRows a b junk blo bhi i cnt prev best) := by
  intro cnt
  induction cnt with
  | zero => intro i prev best _ _ _ h; exact h
  | succ cnt ih =>
    intro i prev best hai hcnt hprev hbest
    rw [dpRows]
    have hmem : ∀ j ∈ b2j b junk (a.getD i default),
        j < b.length ∧ b.getD j default = a.getD i default := fun j hj => mem_b2j hj
    have hrow := rowLoop_good a b alo ahi blo bhi i prev hai (by omega) hprev
      (b2j b junk (a.getD i default)) (fun _ => 0) best hmem
      (fun j h0 => absurd rfl h0) hbest
    exact ih (i + 1) _ _ (by omega) (by omega) hrow.1 hrow.2

theorem extendBackNonJunk_good [DecidableEq α] [Inhabited α] (a b : List α) (junk : α → Bool)
    (alo ahi blo bhi : Nat) :
    ∀ (cnt : Nat) (m : MBlock), GoodBest a b alo ahi blo bhi m →
      GoodBest a b alo ahi blo bhi (extendBackNonJunk a b junk alo blo cnt m) := by
  intro cnt
  induction cnt with
  | zero => exact fun m h => h
  | succ cnt ih =>
    intro m hm
    rw [extendBackNonJunk]
    by_cases hg : alo < m.i ∧ blo < m.j ∧ junk (b.getD (m.j - 1) default) = false ∧
        a.getD (m.i - 1) default = b.getD (m.j - 1) default
    · rw [if_pos hg]
      apply ih
      obtain ⟨h1, h2, h3, h4, h5⟩ := hm
      obtain ⟨g1, g2, _, g4⟩ := hg
      refine ⟨?_, ?_, ?_, ?_, ?_⟩
      · show alo ≤ m.i - 1
        omega
      · show blo ≤ m.j - 1
        omega
      · show m.i - 1 + (m.size + 1) ≤ ahi
        omega
      · show m.j - 1 + (m.size + 1) ≤ bhi
        omega
      intro t ht
      have ht2 : t < m.size + 1 := ht
      match t with
      | 0 =>
        show a.getD (m.i - 1 + 0) default = b.getD (m.j - 1 + 0) default
        simpa using g4
      | t + 1 =>
        show a.getD (m.i - 1 + (t + 1)) default = b.getD (m.j - 1 + (t + 1)) default
        rw [(by omega : m.i - 1 + (t + 1) = m.i + t), (by omega : m.j - 1 + (t + 1) = m.j + t)]
        exact h5 t (by omega)
    · rw [if_neg hg]; exact hm

theorem extendFwdNonJunk_good [DecidableEq α] [Inhabited α] (a b : List α) (junk : α → Bool)
    (alo ahi blo bhi : Nat) :
    ∀ (cnt : Nat) (m : MBlock), GoodBest a b alo ahi blo bhi m →
      GoodBest a b alo ahi blo bhi (extendFwdNonJunk a b junk ahi bhi cnt m) := by
  intro cnt
  induction cnt with
  | zero => exact fun m h => h
  | succ cnt ih =>
    intro m hm
    rw [extendFwdNonJunk]
    by_cases hg : m.i + m.size < ahi ∧ m.j + m.size < bhi ∧
        junk (b.getD (m.j + m.size) default) = false ∧
        a.getD (m.i + m.size) default = b.getD (m.j + m.size) default
    · rw [if_pos hg]
      apply ih
      obtain ⟨h1, h2, h3, h4, h5⟩ := hm
      obtain ⟨g1, g2, _, g4⟩ := hg
      refine ⟨h1, h2, ?_, ?_, ?_⟩
      · show m.i + (m.size + 1) ≤ ahi
        omega
      · show m.j + (m.size + 1) ≤ bhi
        omega
      intro t ht
      have ht3 : t < m.size + 1 := ht
      rcases Nat.lt_succ_iff_lt_or_eq.mp ht3 with ht2 | ht2
      · exact h5 t ht2
      · subst ht2; exact g4
    · rw [if_neg hg]; exact hm

theorem extendBackJunk_good [DecidableEq α] [Inhabited α] (a b : List α) (junk : α → Bool)
    (alo ahi blo bhi : Nat) :
    ∀ (cnt : Nat) (m : MBlock), GoodBest a b alo ahi blo bhi m →
      GoodBest a b alo ahi blo bhi (extendBackJunk a b junk alo blo cnt m) := by
  intro cnt
  induction cnt with
  | zero => exact fun m h => h
  | succ cnt ih =>
    intro m hm
    rw [extendBackJunk]
    by_cases hg : alo < m.i ∧ blo < m.j ∧ junk (b.getD (m.j - 1) default) = true ∧
        a.getD (m.i - 1) default = b.getD (m.j - 1) default
    · rw [if_pos hg]
      apply ih
      obtain ⟨h1, h2, h3, h4, h5⟩ := hm
      obtain ⟨g1, g2, _, g4⟩ := hg
      refine ⟨?_, ?_, ?_, ?_, ?_⟩
      · show alo ≤ m.i - 1
        omega
      · show blo ≤ m.j - 1
        omega
      · show m.i - 1 + (m.size + 1) ≤ ahi
        omega
      · show m.j - 1 + (m.size + 1) ≤ bhi
        omega
      intro t ht
      have ht2 : t < m.size + 1 := ht
      match t with
      | 0 =>
        show a.getD (m.i - 1 + 0) default = b.getD (m.j - 1 + 0) default
        simpa using g4
      | t + 1 =>
        show a.getD (m.i - 1 + (t + 1)) default = b.getD (m.j - 1 + (t + 1)) default
        rw [(by omega : m.i - 1 + (t + 1) = m.i + t), (by omega : m.j - 1 + (t + 1) = m.j + t)]
        exact h5 t (by omega)
    · rw [if_neg hg]; exact hm

theorem extendFwdJunk_good [DecidableEq α] [Inhabited α] (a b : List α) (junk : α → Bool)
    (alo ahi blo bhi : Nat) :
    ∀ (cnt : Nat) (m : MBlock), GoodBest a b alo ahi blo bhi m →
      GoodBest a b alo ahi blo bhi (extendFwdJunk a b junk ahi bhi cnt m) := by
  intro cnt
  induction cnt with
  | zero => exact fun m h => h
  | succ cnt ih =>
    intro m hm
    rw [extendFwdJunk]
    by_cases hg : m.i + m.size < ahi ∧ m.j + m.size < bhi ∧
        junk (b.getD (m.j + m.size) default) = true ∧
        a.getD (m.i + m.size) default = b.getD (m.j + m.size) default
    · rw [if_pos hg]
      apply ih
      obtain ⟨h1, h2, h3, h4, h5⟩ := hm
      obtain ⟨g1, g2, _, g4⟩ := hg
      refine ⟨h1, h2, ?_, ?_, ?_⟩
      · show m.i + (m.size + 1) ≤ ahi
        omega
      · show m.j + (m.size + 1) ≤ bhi
        omega
      intro t ht
      have ht3 : t < m.size + 1 := ht
      rcases Nat.lt_succ_iff_lt_or_eq.mp ht3 with ht2 | ht2
      · exact h5 t ht2
      · subst ht2; exact g4
    · rw [if_neg hg]; exact hm

/-- `find_longest_match` returns an in-window, in-bounds, genuine match. -/
theorem flm_good [DecidableEq α] [Inhabited α] (a b : List α) (junk : α → Bool)
    (alo ahi blo bhi : Nat) (h1 : alo ≤ ahi) (h2 : blo ≤ bhi) :
    GoodBest a b alo ahi blo bhi (findLongestMatch a b junk alo ahi blo bhi) := by
  unfold findLongestMatch
  apply extendFwdJunk_good
  apply extendBackJunk_good
  apply extendFwdNonJunk_good
  apply extendBackNonJunk_good
  apply dpRows_good a b junk alo ahi blo bhi (ahi - alo) alo (fun _ => 0) ⟨alo, blo, 0⟩
    (le_refl alo) (by omega) (fun j h0 => absurd rfl h0)
  refine ⟨le_refl alo, le_refl blo, ?_, ?_, ?_⟩
  · show alo + 0 ≤ ahi
    omega
  · show blo + 0 ≤ bhi
    omega
  · intro t ht
    exact absurd (show t < 0 from ht) (by omega)

theorem matchingBlocksAux_chain [DecidableEq α] [Inhabited α] (a b : List α) (junk : α → Bool) :
    ∀ (depth alo ahi blo bhi : Nat), alo ≤ ahi → blo ≤ bhi →
      ChainBlocks a b alo blo ahi bhi (matchingBlocksAux a b junk depth alo ahi blo bhi) := by
  intro depth
  induction depth with
  | zero => intro alo ahi blo bhi _ _; exact .nil
  | succ depth ih =>
    intro alo ahi blo bhi h1 h2
    rw [matchingBlocksAux]
    obtain ⟨g1, g2, g3, g4, g5⟩ := flm_good a b junk alo ahi blo bhi h1 h2
    set m := findLongestMatch a b junk alo ahi blo bhi with hm
    by_cases hz : m.size = 0
    · rw [if_pos hz]; exact .nil
    · rw [if_neg hz]
      have hmid : ChainBlocks a b m.i m.j ahi bhi
          (m :: (if m.i + m.size < ahi ∧ m.j + m.size < bhi then
            matchingBlocksAux a b junk depth (m.i + m.size) ahi (m.j + m.size) bhi
          else [])) := by
        refine .cons (le_refl _) (le_refl _) (by omega) g3 g4 g5 ?_
        by_cases hc : m.i + m.size < ahi ∧ m.j + m.size < bhi
        · rw [if_pos hc]; exact ih _ _ _ _ (by omega) (by omega)
        · rw [if_neg hc]; exact .nil
      have hleft : ChainBlocks a b alo blo m.i m.j
          (if alo < m.i ∧ blo < m.j then matchingBlocksAux a b junk depth alo m.i blo m.j
           else []) := by
        by_cases hc : alo < m.i ∧ blo < m.j
        · rw [if_pos hc]; exact ih _ _ _ _ (by omega) (by omega)
        · rw [if_neg hc]; exact .nil
      rw [List.append_assoc]
      exact hleft.append hmid g1 g2 (by omega) (by omega)

theorem mergeAdjacent_chain [Inhabited α] {a b : List α} :
    ∀ (bs : List MBlock) (cur : MBlock) (loI loJ hiI hiJ : Nat),
      loI ≤ cur.i → loJ ≤ cur.j → cur.i + cur.size ≤ hiI → cur.j + cur.size ≤ hiJ →
      MatchAt a b cur →
      ChainBlocks a b (cur.i + cur.size) (cur.j + cur.size) hiI hiJ bs →
      ChainBlocks a b loI loJ hiI hiJ (mergeAdjacent cur bs) := by
  intro bs
  induction bs with
  | nil =>
    intro cur loI loJ hiI hiJ l1 l2 l3 l4 lm _
    rw [mergeAdjacent]
    by_cases hz : cur.size ≠ 0
    · rw [if_pos hz]
      exact .cons l1 l2 (by omega) l3 l4 lm .nil
    · rw [if_neg hz]; exact .nil
  | cons blk rest ih =>
    intro cur loI loJ hiI hiJ l1 l2 l3 l4 lm hchain
    cases hchain with
    | cons c1 c2 c3 c4 c5 c6 c7 =>
      rw [mergeAdjacent]
      by_cases hadj : cur.i + cur.size = blk.i ∧ cur.j + cur.size = blk.j
      · rw [if_pos hadj]
        apply ih ⟨cur.i, cur.j, cur.size + blk.size⟩ loI loJ hiI hiJ l1 l2 ?_ ?_ ?_ ?_
        · show cur.i + (cur.size + blk.size) ≤ hiI
          omega
        · show cur.j + (cur.size + blk.size) ≤ hiJ
          omega
        · intro t ht
          have ht2 : t < cur.size + blk.size := ht
          show a.getD (cur.i + t) default = b.getD (cur.j + t) default
          by_cases htc : t < cur.size
          · exact lm t htc
          · rw [(by omega : cur.i + t = blk.i + (t - cur.size)),
              (by omega : cur.j + t = blk.j + (t - cur.size))]
            exact c6 (t - cur.size) (by omega)
        · show ChainBlocks a b (cur.i + (cur.size + blk.size))
            (cur.j + (cur.size + blk.size)) hiI hiJ rest
          rw [(by omega : cur.i + (cur.size + blk.size) = blk.i + blk.size),
            (by omega : cur.j + (cur.size + blk.size) = blk.j + blk.size)]
          exact c7
      · rw [if_neg hadj]
        by_cases hz : cur.size ≠ 0
        · rw [if_pos hz]
          exact .cons l1 l2 (by omega) l3 l4 lm (ih blk _ _ _ _ c1 c2 c4 c5 c6 c7)
        · rw [if_neg hz]
          exact ih blk loI loJ hiI hiJ (by omega) (by omega) c4 c5 c6 c7

/-- The contribution of one opcode to the reconstruction of `b` in the
repo's word diff: `equal` spans carry the first sequence's slice (which
the matching makes equal to the second's), `added` material carries the
second sequence's slice, removals contribute nothing. -/
def opcodeB [Inhabited α] (a b : List α) (op : Opcode) : List α :=
  match op.tag with
  | .equal => pySlice a op.i1 op.i2
  | .replace => pySlice b op.j1 op.j2
  | .delete => []
  | .insert => pySlice b op.j1 op.j2

/-- The contribution of one opcode to the reconstruction of `a`. -/
def opcodeA (a : List α) (op : Opcode) : List α :=
  match op.tag with
  | .equal => pySlice a op.i1 op.i2
  | .replace => pySlice a op.i1 op.i2
  | .delete => pySlice a op.i1 op.i2
  | .insert => []

theorem preOps_join [Inhabited α] (a b : List α) (i j i2 j2 : Nat)
    (hii : i ≤ i2) (hjj : j ≤ j2) :
    (((if i < i2 ∧ j < j2 then [⟨OpTag.replace, i, i2, j, j2⟩]
       else if i < i2 then [⟨OpTag.delete, i, i2, j, j2⟩]
       else if j < j2 then [⟨OpTag.insert, i, i2, j, j2⟩]
       else []) : List Opcode).map (opcodeB a b)).flatten = pySlice b j j2 ∧
    (((if i < i2 ∧ j < j2 then [⟨OpTag.replace, i, i2, j, j2⟩]
       else if i < i2 then [⟨OpTag.delete, i, i2, j, j2⟩]
       else if j < j2 then [⟨OpTag.insert, i, i2, j, j2⟩]
       else []) : List Opcode).map (opcodeA a)).flatten = pySlice a i i2 := by
  by_cases h1 : i < i2 ∧ j < j2
  · rw [if_pos h1]
    simp [opcodeB, opcodeA]
  · rw [if_neg h1]
    by_cases h2 : i < i2
    · rw [if_pos h2]
      have hj2 : j2 = j := by omega
      subst hj2
      simp [opcodeB, opcodeA, pySlice]
    · rw [if_neg h2]
      have hi2 : i2 = i := by omega
      subst hi2
      by_cases h3 : j < j2
      · rw [if_pos h3]
        simp [opcodeB, opcodeA, pySlice]
      · rw [if_neg h3]
        have hj2 : j2 = j := by omega
        subst hj2
        simp [pySlice]

theorem opcodesLoop_reconstruct [Inhabited α] (a b : List α) :
    ∀ (bs : List MBlock) (i j : Nat),
      ChainBlocks a b i j a.length b.length bs → i ≤ a.length → j ≤ b.length →
      ((opcodesLoop i j (bs ++ [⟨a.length, b.length, 0⟩])).map (opcodeB a b)).flatten = b.drop j ∧
      ((opcodesLoop i j (bs ++ [⟨a.length, b.length, 0⟩])).map (opcodeA a)).flatten = a.drop i := by
  intro bs
  induction bs with
  | nil =>
    intro i j _ hi hj
    rw [List.nil_append, opcodesLoop, opcodesLoop]
    rw [if_neg (show ¬ ((⟨a.length, b.length, 0⟩ : MBlock).size ≠ 0) by simp)]
    obtain ⟨hB, hA⟩ := preOps_join a b i j a.length b.length hi hj
    simp only [List.map_append, List.flatten_append, List.map_nil, List.flatten_nil,
      List.append_nil] at hB hA ⊢
    rw [hB, hA, pySlice_to_end, pySlice_to_end]
    exact ⟨rfl, rfl⟩
  | cons blk rest ih =>
    intro i j hchain hi hj
    cases hchain with
    | cons c1 c2 c3 c4 c5 c6 c7 =>
      obtain ⟨ihB, ihA⟩ := ih (blk.i + blk.size) (blk.j + blk.size) c7 (by omega) (by omega)
      rw [List.cons_append, opcodesLoop]
      rw [if_pos (show blk.size ≠ 0 by omega)]
      obtain ⟨hB, hA⟩ := preOps_join a b i j blk.i blk.j c1 c2
      simp only [List.map_append, List.flatten_append, List.map_cons, List.map_nil,
        List.flatten_cons, List.flatten_nil, List.append_nil]
      rw [ihB, ihA, hB, hA]
      constructor
      · rw [List.append_assoc]
        show pySlice b j blk.j ++ (opcodeB a b ⟨.equal, blk.i, blk.i + blk.size, blk.j,
          blk.j + blk.size⟩ ++ b.drop (blk.j + blk.size)) = b.drop j
        show pySlice b j blk.j ++ (pySlice a blk.i (blk.i + blk.size)
          ++ b.drop (blk.j + blk.size)) = b.drop j
        rw [pySlice_eq_of_match blk c6 c4 c5,
          pySlice_append_drop b blk.j (blk.j + blk.size) (by omega),
          pySlice_append_drop b j blk.j c2]
      · rw [List.append_assoc]
        show pySlice a i blk.i ++ (pySlice a blk.i (blk.i + blk.size)
          ++ a.drop (blk.i + blk.size)) = a.drop i
        rw [pySlice_append_drop a blk.i (blk.i + blk.size) (by omega),
          pySlice_append_drop a i blk.i c1]

/-- The two reconstruction identities for `get_opcodes`, for any inputs
and any junk predicate. -/
theorem getOpcodes_reconstruct [DecidableEq α] [Inhabited α] (a b : List α) (junk : α → Bool) :
    ((getOpcodes a b junk).map (opcodeB a b)).flatten = b ∧
    ((getOpcodes a b junk).map (opcodeA a)).flatten = a := by
  unfold getOpcodes getMatchingBlocks
  have hchain : ChainBlocks a b 0 0 a.length b.length
      (mergeAdjacent ⟨0, 0, 0⟩
        (matchingBlocksAux a b junk (a.length + b.length + 1) 0 a.length 0 b.length)) := by
    apply mergeAdjacent_chain _ ⟨0, 0, 0⟩ 0 0 a.length b.length (le_refl 0) (le_refl 0)
      (show 0 + 0 ≤ a.length by omega) (show 0 + 0 ≤ b.length by omega)
      (fun t ht => absurd (show t < 0 from ht) (by omega))
    show ChainBlocks a b (0 + 0) (0 + 0) a.length b.length _
    simpa using matchingBlocksAux_chain a b junk (a.length + b.length + 1) 0 a.length 0
      b.length (by omega) (by omega)
  have h := opcodesLoop_reconstruct a b _ 0 0 hchain (by omega) (by omega)
  simpa using h

/-! ## `VersionController.get_word_diff` (claim C9) -/

inductive SpanType where
  | equal
  | removed
  | added
deriving Repr, DecidableEq

structure DiffSpan where
  type : SpanType
  words : List String
deriving Repr, DecidableEq

/-- The span dictionaries `get_word_diff` emits for one opcode. -/
def opSpans (w1 w2 : List String) (op : Opcode) : List DiffSpan :=
  match op.tag with
  | .equal => [⟨.equal, pySlice w1 op.i1 op.i2⟩]
  | .replace => [⟨.removed, pySlice w1 op.i1 op.i2⟩, ⟨.added, pySlice w2 op.j1 op.j2⟩]
  | .delete => [⟨.removed, pySlice w1 op.i1 op.i2⟩]
  | .insert => [⟨.added, pySlice w2 op.j1 op.j2⟩]

/-- `VersionController.get_word_diff` on the two version contents:
whitespace-tokenize both, then walk the opcodes of
`SequenceMatcher(None, words1, words2)`. -/
def getWordDiff (content1 content2 : String) : List DiffSpan :=
  ((getOpcodes (pySplit content1) (pySplit content2) (fun _ => false)).map
    (opSpans (pySplit content1) (pySplit content2))).flatten

/-- Selects the `equal` and `added` spans. -/
def keepEqAdded (t : SpanType) : Bool :=
  match t with
  | .equal => true
  | .added => true
  | .removed => false

/-- Selects the `equal` and `removed` spans. -/
def keepEqRemoved (t : SpanType) : Bool :=
  match t with
  | .equal => true
  | .added => false
  | .removed => true

/-- The concatenated words of the spans whose type `keep` selects, in
order. -/
def spanWords (keep : SpanType → Bool) (spans : List DiffSpan) : List String :=
  ((spans.filter (fun sp => keep sp.type)).map DiffSpan.words).flatten

theorem spanWords_append (keep : SpanType → Bool) (l1 l2 : List DiffSpan) :
    spanWords keep (l1 ++ l2) = spanWords keep l1 ++ spanWords keep l2 := by
  unfold spanWords
  rw [List.filter_append, List.map_append, List.flatten_append]

theorem spanWords_flatten (keep : SpanType → Bool) (ls : List (List DiffSpan)) :
    spanWords keep ls.flatten = (ls.map (spanWords keep)).flatten := by
  induction ls with
  | nil => rfl
  | cons x xs ih =>
    rw [List.flatten_cons, spanWords_append, ih, List.map_cons, List.flatten_cons]

theorem spanWords_opSpans (w1 w2 : List String) (op : Opcode) :
    spanWords keepEqAdded (opSpans w1 w2 op) = opcodeB w1 w2 op ∧
    spanWords keepEqRemoved (opSpans w1 w2 op) = opcodeA w1 op := by
  cases op with
  | mk tag i1 i2 j1 j2 =>
    cases tag <;>
      simp [opSpans, spanWords, opcodeB, opcodeA, keepEqAdded, keepEqRemoved, List.filter]

/-- Claim C9: the word diff's spans tile both inputs — concatenating the
words of the `equal` and `added` spans, in order, reproduces the second
content's whitespace-tokenized word sequence, and the `equal` and
`removed` spans reproduce the first content's. -/
theorem word_diff_reconstructs (content1 content2 : String) :
    spanWords keepEqAdded (getWordDiff content1 content2) = pySplit content2 ∧
    spanWords keepEqRemoved (getWordDiff content1 content2) = pySplit content1 := by
  obtain ⟨hB, hA⟩ :=
    getOpcodes_reconstruct (pySplit content1) (pySplit content2) (fun _ => false)
  unfold getWordDiff
  have hmapB : (getOpcodes (pySplit content1) (pySplit content2) (fun _ => false)).map
      (spanWords keepEqAdded ∘ opSpans (pySplit content1) (pySplit content2))
      = (getOpcodes (pySplit content1) (pySplit content2) (fun _ => false)).map
        (opcodeB (pySplit content1) (pySplit content2)) :=
    List.map_congr_left (fun op _ => (spanWords_opSpans _ _ op).1)
  have hmapA : (getOpcodes (pySplit content1) (pySplit content2) (fun _ => false)).map
      (spanWords keepEqRemoved ∘ opSpans (pySplit content1) (pySplit content2))
      = (getOpcodes (pySplit content1) (pySplit content2) (fun _ => false)).map
        (opcodeA (pySplit content1)) :=
    List.map_congr_left (fun op _ => (spanWords_opSpans _ _ op).2)
  constructor
  · rw [spanWords_flatten, List.map_map, hmapB]
    exact hB
  · rw [spanWords_flatten, List.map_map, hmapA]
    exact hA

/-! ## Self-comparison (claim C5)

`merge_changes(doc, doc)` (no branch lineage pointing at the document
itself) takes the two-way path with equal line lists. We show
`SequenceMatcher(None, xs, xs)` returns the single full-length matching
block `(0, 0, n)`. Autojunk may cripple the dynamic-programming phase
(popular lines are dropped from `b2j`), but the running best block can
never leave the diagonal: a DP run ending at `(i, j)` forces an equal
run on the diagonal ending at `(min i j, min i j)` whose DP value is
found no later in the row-major scan, so a strict improvement is only
possible at a diagonal cell. The two non-junk extension loops then
stretch the diagonal best block to `(0, 0, n)`. -/

/-- Position `j` survives into `b2j` for a self-comparison (it is not
autojunk-popular). -/
def selfValid [DecidableEq α] [Inhabited α] (a : List α) (j : Nat) : Prop :=
  j ∈ b2j a (fun _ => false) (a.getD j default)

instance [DecidableEq α] [Inhabited α] (a : List α) (j : Nat) :
    Decidable (selfValid a j) := by
  unfold selfValid
  infer_instance

/-- Length of the run of `selfValid` positions ending at `j` — the DP
value of the diagonal cell `(j, j)` in a self-comparison. -/
def diagRun [DecidableEq α] [Inhabited α] (a : List α) : Nat → Nat
  | 0 => if selfValid a 0 then 1 else 0
  | j + 1 => if selfValid a (j + 1) then diagRun a j + 1 else 0

theorem diagRun_le [DecidableEq α] [Inhabited α] (a : List α) : ∀ j, diagRun a j ≤ j + 1 := by
  intro j
  induction j with
  | zero => rw [diagRun]; split <;> omega
  | succ j ih => rw [diagRun]; split <;> omega

theorem diagRun_zero_of_valid [DecidableEq α] [Inhabited α] {a : List α}
    (h : selfValid a 0) : diagRun a 0 = 1 := by
  rw [diagRun, if_pos h]

theorem diagRun_succ_of_valid [DecidableEq α] [Inhabited α] {a : List α} {j : Nat}
    (h : selfValid a (j + 1)) : diagRun a (j + 1) = diagRun a j + 1 := by
  rw [diagRun, if_pos h]

theorem diagRun_of_not_valid [DecidableEq α] [Inhabited α] {a : List α} {j : Nat}
    (h : ¬ selfValid a j) : diagRun a j = 0 := by
  cases j with
  | zero => rw [diagRun, if_neg h]
  | succ j => rw [diagRun, if_neg h]

/-- `diagRunBefore a i` is the diagonal run ending at the row before
`i` — 0 for the first row. -/
def diagRunBefore [DecidableEq α] [Inhabited α] (a : List α) : Nat → Nat
  | 0 => 0
  | i + 1 => diagRun a i

theorem b2j_sorted [DecidableEq α] (b : List α) (junk : α → Bool) (e : α) :
    (b2j b junk e).Pairwise (· < ·) := by
  unfold b2j
  split
  · exact List.Pairwise.nil
  · exact (List.pairwise_lt_range b.length).filter _

/-- Membership in a self-comparison row: the cell position and the row
are both `selfValid`, and the elements agree. -/
theorem b2j_self_elem [DecidableEq α] [Inhabited α] {a : List α} {i j : Nat}
    (h : j ∈ b2j a (fun _ => false) (a.getD i default)) (hi : i < a.length) :
    selfValid a j ∧ selfValid a i ∧ a.getD j default = a.getD i default ∧ j < a.length := by
  obtain ⟨hj, he⟩ := mem_b2j h
  have hvj : selfValid a j := by
    unfold selfValid
    rw [he]
    exact h
  have hvi : selfValid a i := by
    unfold selfValid
    unfold b2j at h ⊢
    by_cases hc : (fun _ : α => false) (a.getD i default) = true ∨
        (200 ≤ a.length ∧
          a.length / 100 + 1 < a.countP (fun x => decide (x = a.getD i default)))
    · rw [if_pos hc] at h; cases h
    · rw [if_neg hc]
      rw [List.mem_filter, List.mem_range]
      refine ⟨hi, ?_⟩
      rw [getD_eq_getElem' a i (a.getD i default) hi,
        decide_eq_true_iff, getD_eq_getElem' a i default hi]
  exact ⟨hvj, hvi, he, hj⟩

/-- `selfValid a i` is exactly membership of `i` in its own row. -/
theorem selfValid_mem [DecidableEq α] [Inhabited α] {a : List α} {i : Nat}
    (h : selfValid a i) : i ∈ b2j a (fun _ => false) (a.getD i default) := h

/-- Row invariant for the self-comparison: after the row, the `j2len`
entry at `i` is exactly `diagRun a i`, all entries are bounded by their
diagonal runs and by `diagRun a i`, and the best block is diagonal, in
bounds, and dominates all diagonal runs up to row `i`. -/
def SelfRowOut [DecidableEq α] [Inhabited α] (a : List α) (i : Nat)
    (st : (Nat → Nat) × MBlock) : Prop :=
  st.1 i = diagRun a i ∧ (∀ j, st.1 j ≤ diagRun a j) ∧ (∀ j, st.1 j ≤ diagRun a i) ∧
  st.2.i = st.2.j ∧ st.2.j + st.2.size ≤ a.length ∧ ∀ m < i + 1, diagRun a m ≤ st.2.size

theorem rowLoop_self [DecidableEq α] [Inhabited α] (a : List α) (i : Nat)
    (prev : Nat → Nat) (hin : i < a.length)
    (hprev1 : ∀ j, prev j ≤ diagRun a j)
    (hprev2 : ∀ j, prev j ≤ diagRunBefore a i)
    (hprev3 : ∀ i2, i = i2 + 1 → prev i2 = diagRun a i2) :
    ∀ (js : List Nat) (f : Nat → Nat) (best : MBlock),
      (∀ j ∈ js, j ∈ b2j a (fun _ => false) (a.getD i default)) →
      js.Pairwise (· < ·) →
      (∀ j, f j ≤ diagRun a j) → (∀ j, f j ≤ diagRun a i) →
      best.i = best.j → best.j + best.size ≤ a.length →
      (∀ m < i, diagRun a m ≤ best.size) →
      (i ∈ js ∨ (diagRun a i ≤ best.size ∧ f i = diagRun a i)) →
      SelfRowOut a i (rowLoop i prev 0 a.length js f best) := by
  intro js
  induction js with
  | nil =>
    intro f best _ _ hf1 hf2 hb1 hb2 hb3 hdisj
    rcases hdisj with hmem | ⟨hd1, hd2⟩
    · cases hmem
    · refine ⟨hd2, hf1, hf2, hb1, hb2, ?_⟩
      intro m hm
      rcases Nat.lt_succ_iff_lt_or_eq.mp hm with hm2 | hm2
      · exact hb3 m hm2
      · subst hm2; exact hd1
  | cons j js ih =>
    intro f best hmem hsort hf1 hf2 hb1 hb2 hb3 hdisj
    have hj := hmem j (List.mem_cons_self j js)
    obtain ⟨hvj, hvi, heq, hjlen⟩ := b2j_self_elem hj hin
    have hmem2 : ∀ x ∈ js, x ∈ b2j a (fun _ => false) (a.getD i default) :=
      fun x hx => hmem x (List.mem_cons_of_mem j hx)
    have hsort2 : js.Pairwise (· < ·) := (List.pairwise_cons.mp hsort).2
    have hafter : ∀ x ∈ js, j < x := (List.pairwise_cons.mp hsort).1
    rw [rowLoop, if_neg (by omega), if_neg (by omega : ¬ a.length ≤ j)]
    set k := if j = 0 then 1 else prev (j - 1) + 1 with hkdef
    have hk1 : 1 ≤ k := by
      rw [hkdef]; split <;> omega
    have hk_dj : k ≤ diagRun a j := by
      match j with
      | 0 =>
        rw [hkdef, diagRun_zero_of_valid hvj, if_pos rfl]
      | j + 1 =>
        rw [hkdef, if_neg (by omega), diagRun_succ_of_valid hvj]
        simp only [Nat.add_sub_cancel]
        have := hprev1 j
        omega
    have hk_di : k ≤ diagRun a i := by
      match i with
      | 0 =>
        have hd0 : diagRun a 0 = 1 := diagRun_zero_of_valid hvi
        have hpz : ∀ x, prev x = 0 := fun x => by
          have := hprev2 x
          show prev x = 0
          have hz : diagRunBefore a 0 = 0 := rfl
          omega
        rw [hkdef]
        split
        · omega
        · rw [hpz (j - 1)]; omega
      | i + 1 =>
        have hsucc : diagRun a (i + 1) = diagRun a i + 1 := diagRun_succ_of_valid hvi
        have hdb : diagRunBefore a (i + 1) = diagRun a i := rfl
        rw [hkdef]
        split
        · omega
        · have := hprev2 (j - 1)
          omega
    by_cases hji : j = i
    · subst hji
      have hk_eq : k = diagRun a j := by
        match hj2 : j with
        | 0 =>
          rw [hkdef, diagRun_zero_of_valid hvj, if_pos rfl]
        | j2 + 1 =>
          rw [hkdef, if_neg (by omega)]
          simp only [Nat.add_sub_cancel]
          rw [hprev3 j2 rfl, diagRun_succ_of_valid hvj]
      apply ih _ _ hmem2 hsort2
      · intro x
        by_cases hx : x = j
        · subst hx
          show (if x = x then k else f x) ≤ diagRun a x
          rw [if_pos rfl]
          omega
        · simp only [if_neg hx]; exact hf1 x
      · intro x
        by_cases hx : x = j
        · subst hx
          show (if x = x then k else f x) ≤ diagRun a x
          rw [if_pos rfl]
          omega
        · simp only [if_neg hx]; exact hf2 x
      · by_cases hup : best.size < k
        · rw [if_pos hup]
        · rw [if_neg hup]; exact hb1
      · by_cases hup : best.size < k
        · rw [if_pos hup]
          show j + 1 - k + k ≤ a.length
          have := diagRun_le a j
          omega
        · rw [if_neg hup]; exact hb2
      · intro m hm
        by_cases hup : best.size < k
        · rw [if_pos hup]
          show diagRun a m ≤ k
          have := hb3 m hm
          omega
        · rw [if_neg hup]
          exact hb3 m hm
      · right
        constructor
        · by_cases hup : best.size < k
          · rw [if_pos hup]; show diagRun a j ≤ k; omega
          · rw [if_neg hup]; omega
        · show (if j = j then k else f j) = diagRun a j
          rw [if_pos rfl]
          omega
    · have hdisj2 : i ∈ js ∨ (diagRun a i ≤ best.size ∧ f i = diagRun a i) := by
        rcases hdisj with hmem3 | hr
        · rcases List.mem_cons.mp hmem3 with he2 | he2
          · exact absurd he2.symm hji
          · exact Or.inl he2
        · exact Or.inr hr
      have hnoup : ¬ best.size < k := by
        by_cases hlt : j < i
        · have := hb3 j hlt
          omega
        · have hgt : i < j := by omega
          rcases hdisj2 with hmem3 | hr
          · exact absurd (hafter i hmem3) (by omega)
          · omega
      apply ih _ _ hmem2 hsort2
      · intro x
        by_cases hx : x = j
        · subst hx
          show (if x = x then k else f x) ≤ diagRun a x
          rw [if_pos rfl]
          omega
        · simp only [if_neg hx]; exact hf1 x
      · intro x
        by_cases hx : x = j
        · subst hx
          show (if x = x then k else f x) ≤ diagRun a i
          rw [if_pos rfl]
          omega
        · simp only [if_neg hx]; exact hf2 x
      · rw [if_neg hnoup]; exact hb1
      · rw [if_neg hnoup]; exact hb2
      · intro m hm
        rw [if_neg hnoup]
        exact hb3 m hm
      · rcases hdisj2 with hmem3 | ⟨hr1, hr2⟩
        · exact Or.inl hmem3
        · refine Or.inr ⟨?_, ?_⟩
          · rw [if_neg hnoup]; exact hr1
          · show (if i = j then k else f i) = diagRun a i
            rw [if_neg (fun h => hji h.symm)]
            exact hr2

/-- Through all remaining rows of the self-comparison DP the best block
stays diagonal and in bounds. -/
theorem dpRows_self [DecidableEq α] [Inhabited α] (a : List α) :
    ∀ (cnt i : Nat) (prev : Nat → Nat) (best : MBlock),
      i + cnt = a.length →
      (∀ j, prev j ≤ diagRun a j) →
      (∀ j, prev j ≤ diagRunBefore a i) →
      (∀ i2, i = i2 + 1 → prev i2 = diagRun a i2) →
      best.i = best.j → best.j + best.size ≤ a.length →
      (∀ m < i, diagRun a m ≤ best.size) →
      ∃ t s, dpRows a a (fun _ => false) 0 a.length i cnt prev best = ⟨t, t, s⟩ ∧
        t + s ≤ a.length := by
  intro cnt
  induction cnt with
  | zero =>
    intro i prev best _ _ _ _ hb1 hb2 _
    obtain ⟨bi, bj, bs⟩ := best
    have hb1' : bi = bj := hb1
    subst hb1'
    exact ⟨bi, bs, rfl, hb2⟩
  | succ cnt ih =>
    intro i prev best hlen hprev1 hprev2 hprev3 hb1 hb2 hb3
    have hin : i < a.length := by omega
    have hdisj : i ∈ b2j a (fun _ => false) (a.getD i default) ∨
        (diagRun a i ≤ best.size ∧ (fun _ : Nat => 0) i = diagRun a i) := by
      by_cases hv : selfValid a i
      · exact Or.inl (selfValid_mem hv)
      · right
        rw [diagRun_of_not_valid hv]
        exact ⟨Nat.zero_le _, rfl⟩
    have hrow := rowLoop_self a i prev hin hprev1 hprev2 hprev3
      (b2j a (fun _ => false) (a.getD i default)) (fun _ => 0) best
      (fun j hj => hj) (b2j_sorted a (fun _ => false) (a.getD i default))
      (fun j => Nat.zero_le _) (fun j => Nat.zero_le _) hb1 hb2 hb3 hdisj
    unfold SelfRowOut at hrow
    obtain ⟨hs1, hs2, hs3, hs4, hs5, hs6⟩ := hrow
    rw [dpRows]
    exact ih (i + 1)
      (rowLoop i prev 0 a.length (b2j a (fun _ => false) (a.getD i default))
        (fun _ => 0) best).1
      (rowLoop i prev 0 a.length (b2j a (fun _ => false) (a.getD i default))
        (fun _ => 0) best).2
      (by omega) hs2 (fun j => hs3 j)
      (fun i2 h => by
        have h2 : i2 = i := by omega
        subst h2
        exact hs1)
      hs4 hs5 hs6

/-- On the self-comparison the first extension loop, run with iteration
count `t` on the diagonal block `⟨t, t, s⟩`, slides the block all the
way back to position 0. -/
theorem extendBackNonJunk_diag [DecidableEq α] [Inhabited α] (a : List α) :
    ∀ (t s : Nat), t + s ≤ a.length →
      extendBackNonJunk a a (fun _ => false) 0 0 t ⟨t, t, s⟩ = ⟨0, 0, s + t⟩ := by
  intro t
  induction t with
  | zero =>
    intro s _
    rfl
  | succ t ih =>
    intro s hts
    rw [extendBackNonJunk, if_pos (show 0 < (⟨t + 1, t + 1, s⟩ : MBlock).i ∧
        0 < (⟨t + 1, t + 1, s⟩ : MBlock).j ∧
        (fun _ : α => false) (a.getD ((⟨t + 1, t + 1, s⟩ : MBlock).j - 1) default) = false ∧
        a.getD ((⟨t + 1, t + 1, s⟩ : MBlock).i - 1) default =
          a.getD ((⟨t + 1, t + 1, s⟩ : MBlock).j - 1) default
      from ⟨Nat.succ_pos t, Nat.succ_pos t, rfl, rfl⟩)]
    show extendBackNonJunk a a (fun _ => false) 0 0 t ⟨t, t, s + 1⟩ = ⟨0, 0, s + (t + 1)⟩
    rw [ih (s + 1) (by omega)]
    simp only [MBlock.mk.injEq, true_and]
    omega

/-- On the self-comparison the second extension loop grows a diagonal
block anchored at 0 to cover the whole list (given enough fuel). -/
theorem extendFwdNonJunk_diag [DecidableEq α] [Inhabited α] (a : List α) :
    ∀ (cnt s : Nat), a.length ≤ s + cnt → s ≤ a.length →
      extendFwdNonJunk a a (fun _ => false) a.length a.length cnt ⟨0, 0, s⟩ =
        ⟨0, 0, a.length⟩ := by
  intro cnt
  induction cnt with
  | zero =>
    intro s h1 h2
    show (⟨0, 0, s⟩ : MBlock) = ⟨0, 0, a.length⟩
    simp only [MBlock.mk.injEq, true_and]
    omega
  | succ cnt ih =>
    intro s h1 h2
    by_cases hs : s < a.length
    · rw [extendFwdNonJunk, if_pos (show
          (⟨0, 0, s⟩ : MBlock).i + (⟨0, 0, s⟩ : MBlock).size < a.length ∧
          (⟨0, 0, s⟩ : MBlock).j + (⟨0, 0, s⟩ : MBlock).size < a.length ∧
          (fun _ : α => false)
            (a.getD ((⟨0, 0, s⟩ : MBlock).j + (⟨0, 0, s⟩ : MBlock).size) default) = false ∧
          a.getD ((⟨0, 0, s⟩ : MBlock).i + (⟨0, 0, s⟩ : MBlock).size) default =
            a.getD ((⟨0, 0, s⟩ : MBlock).j + (⟨0, 0, s⟩ : MBlock).size) default
        from ⟨by show 0 + s < a.length; omega, by show 0 + s < a.length; omega, rfl, rfl⟩)]
      show extendFwdNonJunk a a (fun _ => false) a.length a.length cnt ⟨0, 0, s + 1⟩ =
        ⟨0, 0, a.length⟩
      exact ih (s + 1) (by omega) (by omega)
    · rw [extendFwdNonJunk, if_neg (fun h =>
        absurd h.1 (by show ¬ ((0:Nat) + s < a.length); omega))]
      simp only [MBlock.mk.injEq, true_and]
      omega

/-- With the all-false junk predicate the third extension loop never
fires. -/
theorem extendBackJunk_noop [DecidableEq α] [Inhabited α] (a : List α) :
    ∀ (cnt : Nat) (m : MBlock), extendBackJunk a a (fun _ => false) 0 0 cnt m = m := by
  intro cnt m
  cases cnt with
  | zero => rfl
  | succ cnt =>
    rw [extendBackJunk, if_neg (fun h => Bool.false_ne_true h.2.2.1)]

/-- With the all-false junk predicate the fourth extension loop never
fires. -/
theorem extendFwdJunk_noop [DecidableEq α] [Inhabited α] (a : List α) :
    ∀ (cnt : Nat) (m : MBlock), extendFwdJunk a a (fun _ => false) a.length a.length cnt m = m := by
  intro cnt m
  cases cnt with
  | zero => rfl
  | succ cnt =>
    rw [extendFwdJunk, if_neg (fun h => Bool.false_ne_true h.2.2.1)]

/-- `find_longest_match` over the whole self-comparison rectangle
returns the full diagonal block. -/
theorem flm_self [DecidableEq α] [Inhabited α] (a : List α) :
    findLongestMatch a a (fun _ => false) 0 a.length 0 a.length = ⟨0, 0, a.length⟩ := by
  obtain ⟨t, s, hm, hts⟩ := dpRows_self a a.length 0 (fun _ => 0) ⟨0, 0, 0⟩
    (by omega) (fun j => Nat.zero_le _) (fun j => Nat.zero_le _)
    (fun i2 h => absurd h (by omega)) rfl (Nat.zero_le _)
    (fun m hm => absurd hm (by omega))
  unfold findLongestMatch
  rw [show dpRows a a (fun _ => false) 0 a.length 0 (a.length - 0) (fun _ => 0) ⟨0, 0, 0⟩
      = ⟨t, t, s⟩ from hm]
  show extendFwdJunk a a (fun _ => false) a.length a.length a.length
      (extendBackJunk a a (fun _ => false) 0 0
        (extendFwdNonJunk a a (fun _ => false) a.length a.length a.length
            (extendBackNonJunk a a (fun _ => false) 0 0 t ⟨t, t, s⟩)).i
        (extendFwdNonJunk a a (fun _ => false) a.length a.length a.length
          (extendBackNonJunk a a (fun _ => false) 0 0 t ⟨t, t, s⟩)))
      = ⟨0, 0, a.length⟩
  rw [extendBackNonJunk_diag a t s hts,
    extendFwdNonJunk_diag a a.length (s + t) (by omega) (by omega),
    extendBackJunk_noop, extendFwdJunk_noop]

/-- `get_matching_blocks` on a non-empty self-comparison: the full
diagonal block followed by the terminal sentinel. -/
theorem getMatchingBlocks_self [DecidableEq α] [Inhabited α] (a : List α)
    (hn : a.length ≠ 0) :
    getMatchingBlocks a a (fun _ => false) =
      [⟨0, 0, a.length⟩, ⟨a.length, a.length, 0⟩] := by
  unfold getMatchingBlocks
  have haux : matchingBlocksAux a a (fun _ => false) (a.length + a.length + 1)
      0 a.length 0 a.length = [(⟨0, 0, a.length⟩ : MBlock)] := by
    rw [matchingBlocksAux, flm_self a]
    simp [hn]
  rw [haux]
  rw [mergeAdjacent, if_pos (show
      (⟨0, 0, 0⟩ : MBlock).i + (⟨0, 0, 0⟩ : MBlock).size = (⟨0, 0, a.length⟩ : MBlock).i ∧
      (⟨0, 0, 0⟩ : MBlock).j + (⟨0, 0, 0⟩ : MBlock).size = (⟨0, 0, a.length⟩ : MBlock).j
    from ⟨rfl, rfl⟩)]
  show mergeAdjacent ⟨0, 0, 0 + a.length⟩ [] ++ [(⟨a.length, a.length, 0⟩ : MBlock)] =
    [⟨0, 0, a.length⟩, ⟨a.length, a.length, 0⟩]
  rw [mergeAdjacent,
    if_pos (show (⟨0, 0, 0 + a.length⟩ : MBlock).size ≠ 0 from by
      show 0 + a.length ≠ 0
      omega)]
  rw [Nat.zero_add]
  rfl

/-- `get_opcodes` on a non-empty self-comparison is a single `equal`
opcode covering everything. -/
theorem getOpcodes_self [DecidableEq α] [Inhabited α] (a : List α) (hn : a.length ≠ 0) :
    getOpcodes a a (fun _ => false) = [⟨.equal, 0, a.length, 0, a.length⟩] := by
  unfold getOpcodes
  rw [getMatchingBlocks_self a hn]
  simp [opcodesLoop, hn]

/-- Two-way `merge_changes` of identical line lists: the lines come back
with no conflicts. -/
theorem mergeLinesTwoWay_self (xs : List String) : mergeLinesTwoWay xs xs = (xs, []) := by
  by_cases h : xs.length = 0
  · rw [List.length_eq_zero.mp h]
    rfl
  · unfold mergeLinesTwoWay
    rw [getOpcodes_self xs h]
    show (([] : List String) ++ pySlice xs 0 xs.length, ([] : List Conflict)) = (xs, [])
    rw [List.nil_append, pySlice_to_end, List.drop_zero]

theorem exceptBind_ok {ε α β : Type} (x : α) (f : α → Except ε β) :
    (Bind.bind (Except.ok x) f : Except ε β) = f x := rfl

theorem exceptPure_eq_ok {ε α : Type} (x : α) :
    (Pure.pure x : Except ε α) = Except.ok x := rfl

/-- Claim C5 (corrected): merging a document with itself at its current
version (the target is always read at its current version) yields zero
conflicts, and the merged content is the `'\n'`-join of the stored
content's lines — equal to the stored content itself only when that
content has no trailing line terminator and uses only `'\n'`
terminators. The hypothesis on `branchedFrom` says the document is not
recorded as a branch of itself, which would flip the merge into
three-way mode. -/
theorem merge_self_zero_conflicts (id : String) (d : DocState) (c : String)
    (hc : d.payloads d.meta.currentVersion = some c)
    (hbr : ∀ bi, d.meta.branchedFrom = some bi → ¬ bi.docId = id) :
    mergeChanges id d d none = .ok (String.intercalate "\n" (pySplitlines c), []) := by
  unfold mergeChanges
  rw [show getDocument d none = Except.ok (c, d.meta) from readPayload_some hc]
  simp only [exceptBind_ok]
  cases hb : d.meta.branchedFrom with
  | none =>
    simp only [exceptPure_eq_ok, exceptBind_ok]
    rw [mergeLinesTwoWay_self]
  | some bi =>
    simp only [exceptPure_eq_ok, exceptBind_ok]
    rw [if_neg (hbr bi hb)]
    rw [mergeLinesTwoWay_self]

/-- Witness: merging a freshly created two-line document with itself. -/
theorem merge_self_zero_conflicts_witness :
    mergeChanges "doc1" (createDocument "hello\nworld" "Doc" "txt" "t0")
      (createDocument "hello\nworld" "Doc" "txt" "t0") none =
      .ok ("hello\nworld", []) :=
  Eq.trans
    (merge_self_zero_conflicts "doc1" (createDocument "hello\nworld" "Doc" "txt" "t0")
      "hello\nworld" rfl (fun bi h => Option.noConfusion h))
    (by decide)

/-- Counterexample to the literal claim: a stored content with a
trailing newline comes back from the self-merge without it. -/
theorem merge_self_newline_counterexample :
    mergeChanges "doc1" (createDocument "a\n" "Doc" "txt" "t0")
      (createDocument "a\n" "Doc" "txt" "t0") none = .ok ("a", []) ∧
    "a" ≠ "a\n" :=
  ⟨by decide, by decide⟩

end Docky
